import Mathlib

/-!
Shallow embedding of `jax/interpreters/polysimp.py`: a symbolic polynomial
simplification trace.  Host numeric values are modelled as `Int` (Python
integers); symbols, generated fresh per input, are modelled as naturals.
Every definition mirrors the corresponding source function; the few places
where the source delegates to host code that is not part of the file
(`core.full_lower`, `primitive.bind` applied outside the tracer) are modelled
from the specification and say so in their doc comments.
-/

namespace PolySimp

/-- The error taxonomy of the module: `unsupportedShape` models the
`assert False` branch of `process_primitive` and the tuple-shape assertion in
`unpack`; `unimplementedEvaluation` models the `NotImplementedError` raises;
`hostError` models exceptions raised by host-level operations (tuple-unpacking
`ValueError`s, host applies rejecting their argument, `max` of an empty
sequence). -/
inductive PErr where
  | unsupportedShape
  | unimplementedEvaluation
  | hostError
deriving DecidableEq, Repr

/-- Coefficients: the `ZeroCoeff` singleton `zero`, the `UnitCoeff` singleton
`one` (both compared by identity in the source), or an opaque host value. -/
inductive Coeff where
  | zero
  | one
  | val (a : Int)
deriving DecidableEq, Repr

/-- `mul_coeffs(mul, a, b)`: short-circuit on the sentinels, otherwise
delegate to the caller-supplied host multiply. -/
def mul_coeffs (mul : Int → Int → Int) : Coeff → Coeff → Coeff
  | .zero, _ => .zero
  | _, .zero => .zero
  | .one, b => b
  | a, .one => a
  | .val a, .val b => .val (mul a b)

/-- `add_coeffs(a, b)`: a `zero` operand yields the other operand; a `one`
operand is promoted to the host literal `1` before ordinary host addition;
two opaque values are added by the host. -/
def add_coeffs : Coeff → Coeff → Coeff
  | .zero, b => b
  | a, .zero => a
  | .one, .one => .val (1 + 1)
  | .one, .val b => .val (1 + b)
  | .val a, .one => .val (a + 1)
  | .val a, .val b => .val (a + b)

/-- A monomial is a tuple of symbols; `Mon.__new__` sorts its arguments, so
the stored sequence is canonical. -/
abbrev Mon := List Nat

/-- `Mon(*elts)`: construction sorts the symbol sequence. -/
def Mon.make (elts : List Nat) : Mon :=
  elts.insertionSort (· ≤ ·)

/-- `heap_merge`: merge of two sorted sequences, modelled on the source's
`six.PY2` branch `sorted(a + b)` (the `heapq.merge` branch computes the same
sequence on sorted inputs, and every use re-sorts through `Mon` construction
anyway). -/
def heap_merge (a b : List Nat) : List Nat :=
  (a ++ b).insertionSort (· ≤ ·)

/-- A polynomial is a Python dict from monomials to coefficients, modelled as
an association list whose keys are unique. -/
abbrev Poly := List (Mon × Coeff)

/-- Dict lookup `p[m]` / `p.get(m)`. -/
def lookupC (p : Poly) (m : Mon) : Option Coeff :=
  match p with
  | [] => none
  | e :: rest => if e.1 = m then some e.2 else lookupC rest m

/-- Dict lookup with default: `p.get(m, zero)`. -/
def getC (p : Poly) (m : Mon) : Coeff :=
  (lookupC p m).getD .zero

/-- Dict assignment `p[m] = c`: replace the value at an existing key, else
append a fresh entry. -/
def dinsert (p : Poly) (m : Mon) (c : Coeff) : Poly :=
  match p with
  | [] => [(m, c)]
  | e :: rest => if e.1 = m then (m, c) :: rest else e :: dinsert rest m c

/-- Sum of a list of coefficients, as the accumulation loops compute it. -/
def csum (l : List Coeff) : Coeff := l.foldl add_coeffs .zero

/-- `itertools.product(p1, p2)` over the two dicts' entries. -/
def prodL (p1 p2 : Poly) : List ((Mon × Coeff) × (Mon × Coeff)) :=
  p1.flatMap fun e1 => p2.map fun e2 => (e1, e2)

/-- One iteration of the `mul_polynomials` loop:
`new_terms[mon] = add_coeffs(new_terms.get(mon, zero), coeff)` for the merged
monomial and coefficient product of one term pair. -/
def accumulate (mul : Int → Int → Int) (new_terms : Poly)
    (e : (Mon × Coeff) × (Mon × Coeff)) : Poly :=
  dinsert new_terms (Mon.make (heap_merge e.1.1 e.2.1))
    (add_coeffs (getC new_terms (Mon.make (heap_merge e.1.1 e.2.1)))
      (mul_coeffs mul e.1.2 e.2.2))

/-- `mul_polynomials(mul, p1, p2)`: for every pair of terms, merge the
monomials and accumulate the coefficient product into the result dict. -/
def mul_polynomials (mul : Int → Int → Int) (p1 p2 : Poly) : Poly :=
  (prodL p1 p2).foldl (accumulate mul) []

/-- The contribution of one term pair of the product loop to the output
coefficient at monomial `m`. -/
def mulContrib (mul : Int → Int → Int) (m : Mon)
    (e : (Mon × Coeff) × (Mon × Coeff)) : Coeff :=
  if Mon.make (heap_merge e.1.1 e.2.1) = m then mul_coeffs mul e.1.2 e.2.2
  else .zero

/-- `add_polynomials(p1, p2)`: common monomials get `add_coeffs` of both
coefficients, monomials unique to either side keep their coefficient. -/
def add_polynomials (p1 p2 : Poly) : Poly :=
  (p1.map fun e =>
    match lookupC p2 e.1 with
    | some c2 => (e.1, add_coeffs e.2 c2)
    | none => e)
  ++ p2.filter fun e => (lookupC p1 e.1).isNone

/-- `apply_linear(linear_fun, p)`: map the function over every stored
coefficient, monomials unchanged.  No sentinel short-circuit is performed:
whatever object is stored — including a bare sentinel — is passed to
`linear_fun`. -/
def apply_linear (linear_fun : Coeff → Coeff) (p : Poly) : Poly :=
  p.map fun e => (e.1, linear_fun e.2)

/-- Host abstract descriptors (`aval`s): a scalar descriptor or, for packed
tuples, the tuple of the element descriptors. -/
inductive Aval where
  | scalar
  | tup (descs : List Aval)

/-- `instantiate_symbolic(aval, x)`: a result that is still a bare sentinel is
an unimplemented case (`raise NotImplementedError`); otherwise the value is
returned unchanged. -/
def instantiate_symbolic (aval : Aval) (x : Coeff) : Except PErr Int :=
  match aval, x with
  | _, .zero => .error .unimplementedEvaluation
  | _, .one => .error .unimplementedEvaluation
  | _, .val a => .ok a

/-- One step of the Horner loop:
`out = add_coeffs(mul_coeffs(op.mul, out, x), coeff)`. -/
def hornerStep (x : Int) (out coeff : Coeff) : Coeff :=
  add_coeffs (mul_coeffs (· * ·) out (.val x)) coeff

/-- `eval_univariate_polynomial(x, coeffs)`: Horner evaluation from the
highest degree down, starting from the `zero` sentinel; the host value `x` is
an opaque (non-sentinel) coefficient and `op.mul` is host multiplication. -/
def eval_univariate_polynomial (x : Int) (coeffs : List Coeff) : Coeff :=
  coeffs.reverse.foldl (hornerStep x) .zero

/-- `coeffs = [zero] * (1 + max deg); coeffs[len(mon)] = coeff` — collapse the
dict to a dense array indexed by monomial degree. -/
def buildCoeffs (p : Poly) (maxDeg : Nat) : List Coeff :=
  p.foldl (fun coeffs e => coeffs.set e.1.length e.2)
    (List.replicate (maxDeg + 1) .zero)

/-- `eval_polynomial(env, p, aval)`: requires a single-symbol substitution
environment (`len(env) > 1` raises `NotImplementedError` before anything else
is computed); hosts errors (`x, = env.values()` on an empty dict, `max` of an
empty generator) are `hostError`. -/
def eval_polynomial (env : List (Nat × Int)) (p : Poly) (aval : Aval) :
    Except PErr Int :=
  if env.length > 1 then .error .unimplementedEvaluation
  else
    match env with
    | [(_, x)] =>
        match p with
        | [] => .error .hostError
        | _ =>
          let maxDeg := p.foldl (fun acc e => max acc e.1.length) 0
          let out := eval_univariate_polynomial x (buildCoeffs p maxDeg)
          instantiate_symbolic aval out
    | _ => .error .hostError

/-- `const_poly(val)`: the constant polynomial `{Mon(): val}`. -/
def const_poly (v : Coeff) : Poly :=
  [(Mon.make [], v)]

/-- The host primitives exercised by traced computations: `add`, `mul` and
`neg` carry their concrete host implementations; `sin` stands for a primitive
the caller never registered in any classification set. -/
inductive Prim where
  | add
  | mul
  | neg
  | sin
deriving DecidableEq, Repr

/-- The host's concrete apply (`primitive.bind` on host values) for the
binary primitives. -/
def prim_bind2 : Prim → Int → Int → Int
  | .add => (· + ·)
  | .mul => (· * ·)
  | _ => fun a _ => a

/-- The host's concrete apply (`primitive.bind` on host values) for the unary
primitives. -/
def prim_bind1 : Prim → Int → Int
  | .neg => (-·)
  | _ => id

/-- Modelled from the spec: the host's concrete-apply function for a unary
primitive ("values × params → value", §6) accepts host values only; a bare
`Zero`/`One` sentinel is not a host value, so applying the host operation to a
sentinel coefficient fails inside the host. -/
def host_apply_unary (f : Int → Int) : Coeff → Except PErr Coeff
  | .val a => .ok (.val (f a))
  | _ => .error .hostError

/-- The linear-dispatch rule `apply_linear(primitive.bind, p)` with the host
apply in place of `linear_fun`: the dict comprehension applies the host
operation to every stored coefficient, and fails if the host rejects one. -/
def apply_linear_host (f : Int → Int) : Poly → Except PErr Poly
  | [] => .ok []
  | e :: rest => do
      let c ← host_apply_unary f e.2
      let q ← apply_linear_host f rest
      .ok ((e.1, c) :: q)

/-- `PolySimpTrace.process_primitive`, with the (externally populated,
host-supplied) classification sets passed explicitly: dispatch on the three
classification sets, `assert False` (an `unsupportedShape` failure) for a
primitive registered in none of them.  Tuple-unpacking of the operand list
with the wrong arity is a host `ValueError`. -/
def process_primitive (addition_primitives multiplication_primitives
    linear_primitives : List Prim) (primitive : Prim) (polys_in : List Poly) :
    Except PErr Poly :=
  if primitive ∈ addition_primitives then
    match polys_in with
    | [p1, p2] => .ok (add_polynomials p1 p2)
    | _ => .error .hostError
  else if primitive ∈ multiplication_primitives then
    match polys_in with
    | [p1, p2] => .ok (mul_polynomials (prim_bind2 primitive) p1 p2)
    | _ => .error .hostError
  else if primitive ∈ linear_primitives then
    match polys_in with
    | [p] => apply_linear_host (prim_bind1 primitive) p
    | _ => .error .hostError
  else .error .unsupportedShape

/-- The classification tables as a caller of this tracer populates them for
the model host: `add` is additive, `mul` multiplicative, `neg` linear. -/
def std_addition : List Prim := [.add]

/-- Multiplicative classification set of the model host. -/
def std_multiplication : List Prim := [.mul]

/-- Linear classification set of the model host. -/
def std_linear : List Prim := [.neg]

/-- A traced computation: inputs (by position), host constants lifted by
`trace.pure`, and the classified primitives. -/
inductive Expr where
  | input (i : Nat)
  | lit (c : Int)
  | add (a b : Expr)
  | mul (a b : Expr)
  | neg (a : Expr)
deriving DecidableEq, Repr

/-- Every `Expr.input` index is below the number of traced inputs. -/
def Expr.inputsBounded (n : Nat) : Expr → Bool
  | .input i => i < n
  | .lit _ => true
  | .add a b => a.inputsBounded n && b.inputsBounded n
  | .mul a b => a.inputsBounded n && b.inputsBounded n
  | .neg a => a.inputsBounded n

/-- Running the traced computation under `PolySimpTrace`: the `i`-th input
tracer carries `Poly({Mon(symbol_i): one})` with `symbol_i = i` (the fresh
symbols minted by `pe.gensym`), lifted constants carry `const_poly`, and
every primitive application goes through `process_primitive` with the model
host's classification sets. -/
def traceE : Expr → Except PErr Poly
  | .input i => .ok [(Mon.make [i], .one)]
  | .lit c => .ok (const_poly (.val c))
  | .add a b => do
      let p1 ← traceE a
      let p2 ← traceE b
      process_primitive std_addition std_multiplication std_linear .add [p1, p2]
  | .mul a b => do
      let p1 ← traceE a
      let p2 ← traceE b
      process_primitive std_addition std_multiplication std_linear .mul [p1, p2]
  | .neg a => do
      let p ← traceE a
      process_primitive std_addition std_multiplication std_linear .neg [p]

/-- Direct (untraced) evaluation of the computation on concrete inputs. -/
def evalE (vals : List Int) : Expr → Int
  | .input i => vals.getD i 0
  | .lit c => c
  | .add a b => evalE vals a + evalE vals b
  | .mul a b => evalE vals a * evalE vals b
  | .neg a => -(evalE vals a)

/-- `polysimp(vals)`: mint one fresh symbol per input, trace the computation
to a polynomial, then evaluate it with `env = dict(zip(symbols, vals))`. -/
def simplify (e : Expr) (vals : List Int) : Except PErr Int := do
  let p ← traceE e
  eval_polynomial ((List.range vals.length).zip vals) p .scalar

/-- The polynomial payload of a tracer: a plain dict (`Poly`) or a
`PolyTuple` of the packed tracers' payloads. -/
inductive PolyU where
  | scalar (p : Poly)
  | tup (ps : List PolyU)

/-- `PolySimpTracer`: a tracked value carrying its polynomial and its host
abstract descriptor (the owning trace is left implicit: one session). -/
structure PSTracer where
  poly : PolyU
  aval : Aval

/-- `PolySimpTrace.pack(tracers)`: one composite tracer whose payload is the
`PolyTuple` of the inputs' polynomials, with the tuple of their
descriptors. -/
def PSTrace.pack (tracers : List PSTracer) : PSTracer :=
  ⟨.tup (tracers.map PSTracer.poly), .tup (tracers.map PSTracer.aval)⟩

/-- `PolySimpTracer.unpack`: assert the payload is a `PolyTuple`
(`unsupportedShape` otherwise), then rebuild one tracer per slot by zipping
polynomials with descriptors (`safe_map` asserts equal lengths — a host
error when violated). -/
def PSTracer.unpack (t : PSTracer) : Except PErr (List PSTracer) :=
  match t.poly, t.aval with
  | .tup ps, .tup descs =>
      if ps.length = descs.length then
        .ok ((ps.zip descs).map fun pd => ⟨pd.1, pd.2⟩)
      else .error .hostError
  | _, _ => .error .unsupportedShape

/-- Modelled from the spec: `core.full_lower` on a lowered coefficient is not
part of this file; per §4.3 a bare `Zero`/`One` sentinel "must never escape to
a caller: attempting to lower a polynomial whose sole term is a bare sentinel
is an unimplemented case and must fail". -/
def core_full_lower : Coeff → Except PErr Int
  | .val a => .ok a
  | _ => .error .unimplementedEvaluation

/-- `PolySimpTracer.full_lower` on a scalar payload: a one-entry polynomial
whose single monomial is empty is lowered to its (concrete) coefficient;
anything else is returned as the tracked value itself. -/
def full_lower (p : Poly) : Except PErr (Sum Int Poly) :=
  match p with
  | [(m, c)] =>
      if m.length = 0 then (core_full_lower c).map .inl
      else .ok (.inr p)
  | _ => .ok (.inr p)

/-- Reading a coefficient in the host domain: the sentinels denote the host's
`0` and `1`, an opaque coefficient denotes itself. -/
def esem : Coeff → Int
  | .zero => 0
  | .one => 1
  | .val a => a

/-- Mathematical value of a polynomial at `x` (all symbols standing for the
single input): the sum over its entries of coefficient times
`x ^ (monomial degree)`. -/
def psem (x : Int) (p : Poly) : Int :=
  (p.map fun e => esem e.2 * x ^ e.1.length).sum

/-- Mathematical value of a dense degree-indexed coefficient array at `x`. -/
def polyval (x : Int) : List Coeff → Int
  | [] => 0
  | c :: cs => esem c + x * polyval x cs

/-- The invariant of every polynomial produced by tracing a single-input
computation: dict keys are unique; every symbol is the single input's symbol
`0`; no stored coefficient is the `zero` sentinel; the constant term is never
the bare `one` sentinel; and the dict is non-empty. -/
def GoodPoly (p : Poly) : Prop :=
  (p.map Prod.fst).Nodup ∧
  (∀ e ∈ p, ∀ s ∈ e.1, s = 0) ∧
  (∀ e ∈ p, e.2 ≠ Coeff.zero) ∧
  (∀ e ∈ p, e.1 = [] → e.2 ≠ Coeff.one) ∧
  p ≠ []

/-! ### Theorems -/

theorem lookupC_cons (e : Mon × Coeff) (l : Poly) (m : Mon) :
    lookupC (e :: l) m = if e.1 = m then some e.2 else lookupC l m := rfl

/-- The host apply rejects a coefficient only with a host error, never with
the `assert False` shape error. -/
theorem host_apply_unary_err (f : Int → Int) (c : Coeff) :
    host_apply_unary f c ≠ Except.error PErr.unsupportedShape := by
  cases c <;> simp [host_apply_unary]

/-- The linear dispatch can fail only inside the host apply, never with the
`assert False` shape error. -/
theorem apply_linear_host_ne_unsupported (f : Int → Int) (p : Poly) :
    apply_linear_host f p ≠ Except.error PErr.unsupportedShape := by
  induction p with
  | nil => simp [apply_linear_host]
  | cons e rest ih =>
      rw [apply_linear_host]
      simp only [bind, Except.bind]
      cases hc : host_apply_unary f e.2 with
      | error err =>
          intro hcon
          have herr : err = PErr.unsupportedShape := by simpa using hcon
          rw [herr] at hc
          exact host_apply_unary_err f e.2 hc
      | ok v =>
          cases hr : apply_linear_host f rest with
          | error err2 =>
              intro hcon
              have herr : err2 = PErr.unsupportedShape := by simpa using hcon
              rw [herr] at hr
              exact ih hr
          | ok q => simp

/-- Claim C8: a primitive classified in none of the three sets — and only
such a primitive — makes `process_primitive` fail fatally with the
`assert False` (`unsupportedShape`); whenever the classification sets cover
the primitive, that branch is unreachable whatever the operands. -/
theorem claim_C8_unclassified_fails (A M L : List Prim) (prim : Prim)
    (polys_in : List Poly) :
    process_primitive A M L prim polys_in = .error .unsupportedShape ↔
      prim ∉ A ∧ prim ∉ M ∧ prim ∉ L := by
  by_cases hA : prim ∈ A
  · rw [process_primitive.eq_def, if_pos hA]
    constructor
    · intro h
      exfalso
      rcases polys_in with _ | ⟨p1, polys⟩
      · exact absurd h (by simp)
      rcases polys with _ | ⟨p2, polys2⟩
      · exact absurd h (by simp)
      rcases polys2 with _ | ⟨p3, polys3⟩
      · exact absurd h (by simp)
      · exact absurd h (by simp)
    · rintro ⟨h, -, -⟩
      exact absurd hA h
  · by_cases hM : prim ∈ M
    · rw [process_primitive.eq_def, if_neg hA, if_pos hM]
      constructor
      · intro h
        exfalso
        rcases polys_in with _ | ⟨p1, polys⟩
        · exact absurd h (by simp)
        rcases polys with _ | ⟨p2, polys2⟩
        · exact absurd h (by simp)
        rcases polys2 with _ | ⟨p3, polys3⟩
        · exact absurd h (by simp)
        · exact absurd h (by simp)
      · rintro ⟨-, h, -⟩
        exact absurd hM h
    · by_cases hL : prim ∈ L
      · rw [process_primitive.eq_def, if_neg hA, if_neg hM, if_pos hL]
        constructor
        · intro h
          exfalso
          rcases polys_in with _ | ⟨p1, polys⟩
          · exact absurd h (by simp)
          rcases polys with _ | ⟨p2, polys2⟩
          · exact apply_linear_host_ne_unsupported _ p1 h
          · exact absurd h (by simp)
        · rintro ⟨-, -, h⟩
          exact absurd hL h
      · rw [process_primitive.eq_def, if_neg hA, if_neg hM, if_neg hL]
        simp [hA, hM, hL]

/-- Claim C5: coefficient multiplication short-circuits on the sentinels —
a `zero` operand absorbs, a `one` operand returns the other operand
unchanged, two opaque values delegate to the host multiply, and the host
multiply is never consulted when a sentinel is involved. -/
theorem claim_C5_mul_coeffs (mul mulAlt : Int → Int → Int) (a b : Coeff)
    (x y : Int) :
    mul_coeffs mul .zero b = .zero ∧
    mul_coeffs mul a .zero = .zero ∧
    mul_coeffs mul .one b = b ∧
    mul_coeffs mul a .one = a ∧
    mul_coeffs mul (.val x) (.val y) = .val (mul x y) ∧
    ((a = .zero ∨ a = .one ∨ b = .zero ∨ b = .one) →
      mul_coeffs mul a b = mul_coeffs mulAlt a b) := by
  refine ⟨?_, ?_, ?_, ?_, rfl, ?_⟩
  · cases b <;> rfl
  · cases a <;> rfl
  · cases b <;> rfl
  · cases a <;> rfl
  · rintro (rfl | rfl | rfl | rfl)
    · cases b <;> rfl
    · cases b <;> rfl
    · cases a <;> rfl
    · cases a <;> rfl

/-- Witness for C5 at concrete operands: the `one` sentinel really returns
the opaque operand, independently of which host multiply is supplied. -/
theorem claim_C5_witness :
    mul_coeffs (· * ·) Coeff.one (.val 5) =
      mul_coeffs (fun _ _ => 0) Coeff.one (.val 5) :=
  (claim_C5_mul_coeffs (· * ·) (fun _ _ => 0) Coeff.one (.val 5) 0 0).2.2.2.2.2
    (Or.inr (Or.inl rfl))

/-- Claim C6: coefficient addition returns the other operand on a `zero`
sentinel, promotes a `one` sentinel to the host literal `1` before ordinary
addition (so `one + c = 1 + c` and `one + one = 2`), and adds two opaque
values with the host addition. -/
theorem claim_C6_add_coeffs (b : Coeff) (x y : Int) :
    add_coeffs .zero b = b ∧
    add_coeffs b .zero = b ∧
    add_coeffs .one (.val y) = .val (1 + y) ∧
    add_coeffs (.val x) .one = .val (x + 1) ∧
    add_coeffs .one .one = .val 2 ∧
    add_coeffs (.val x) (.val y) = .val (x + y) := by
  refine ⟨?_, ?_, rfl, rfl, ?_, rfl⟩
  · cases b <;> rfl
  · cases b <;> rfl
  · show Coeff.val (1 + 1) = Coeff.val 2
    norm_num

/-- Claim C7: monomial construction sorts its arguments, so any two
permutations of one symbol multiset construct equal monomials (and equal
terms hash equally, hashing being a function of the term). -/
theorem claim_C7_monomial_canonical (l1 l2 : List Nat) (h : l1.Perm l2) :
    Mon.make l1 = Mon.make l2 := by
  apply List.eq_of_perm_of_sorted
    ((List.perm_insertionSort _ l1).trans
      (h.trans (List.perm_insertionSort _ l2).symm))
    (List.sorted_insertionSort _ l1)
    (List.sorted_insertionSort _ l2)

/-- Witness for C7 at a concrete permutation. -/
theorem claim_C7_witness : Mon.make [3, 1, 2] = Mon.make [2, 3, 1] :=
  claim_C7_monomial_canonical [3, 1, 2] [2, 3, 1] (by decide)

/-- Claim C3: a bare sentinel is never handed back to the caller — lowering
a tracked value whose polynomial's sole term pairs the empty monomial with a
bare sentinel fails, and a Horner result that is still a bare sentinel makes
`instantiate_symbolic` fail fatally instead of returning it. -/
theorem claim_C3_sentinel_never_escapes (aval : Aval) :
    full_lower [(Mon.make [], Coeff.zero)] = .error .unimplementedEvaluation ∧
    full_lower [(Mon.make [], Coeff.one)] = .error .unimplementedEvaluation ∧
    instantiate_symbolic aval Coeff.zero = .error .unimplementedEvaluation ∧
    instantiate_symbolic aval Coeff.one = .error .unimplementedEvaluation :=
  ⟨rfl, rfl, rfl, rfl⟩

/-- Claim C4: `eval_polynomial` fails fatally, before computing anything,
whenever the substitution environment holds more than one symbol — the test
looks only at the environment's size, not at the polynomial. -/
theorem claim_C4_multivariate_env_fails (env : List (Nat × Int)) (p : Poly)
    (aval : Aval) (h : 1 < env.length) :
    eval_polynomial env p aval = .error .unimplementedEvaluation := by
  unfold eval_polynomial
  simp [h]

/-- Witness for C4 at a concrete two-symbol environment (and a polynomial in
which neither symbol occurs). -/
theorem claim_C4_witness :
    eval_polynomial [(0, 5), (1, 6)] [] Aval.scalar =
      .error .unimplementedEvaluation :=
  claim_C4_multivariate_env_fails [(0, 5), (1, 6)] [] Aval.scalar (by decide)

/-- Claim C9: ungrouping the composite tracked value obtained by grouping a
list of tracked values restores exactly that list — as many tracers as were
packed, the `i`-th carrying the `i`-th polynomial and descriptor. -/
theorem claim_C9_pack_unpack (tracers : List PSTracer) :
    PSTracer.unpack (PSTrace.pack tracers) = .ok tracers := by
  unfold PSTrace.pack PSTracer.unpack
  simp only [List.length_map, if_pos]
  rw [List.zip_map', List.map_map]
  have hid : ((fun pd : PolyU × Aval => (⟨pd.1, pd.2⟩ : PSTracer)) ∘
      fun t : PSTracer => (t.poly, t.aval)) = id := rfl
  rw [hid, List.map_id]

/-- Claim C10: the linear rule performs no sentinel short-circuit — every
stored coefficient, a bare sentinel included, is passed through the supplied
function unchanged; in particular a fresh input's `{Mon(symbol): one}`
polynomial hands the `one` sentinel object itself to the host apply, which is
why the linear dispatch on such a tracked value fails inside the host. -/
theorem claim_C10_apply_linear_uniform (f : Coeff → Coeff) (p : Poly)
    (m : Mon) (c : Coeff) (s : Nat) (h : lookupC p m = some c) :
    lookupC (apply_linear f p) m = some (f c) ∧
    apply_linear f [(Mon.make [s], Coeff.one)] =
      [(Mon.make [s], f Coeff.one)] ∧
    process_primitive std_addition std_multiplication std_linear .neg
      [[(Mon.make [s], Coeff.one)]] = .error .hostError := by
  refine ⟨?_, rfl, rfl⟩
  induction p with
  | nil => simp [lookupC] at h
  | cons e rest ih =>
      rw [lookupC] at h
      rw [apply_linear, List.map_cons, lookupC]
      by_cases he : e.1 = m
      · rw [if_pos he] at h
        simp only [he, if_pos]
        rw [← Option.some_inj.mp h]
      · rw [if_neg he] at h
        simpa [he] using ih h

/-- Witness for C10: a concrete lookup through `apply_linear`, with a
function that observes it received the bare sentinel. -/
theorem claim_C10_witness :
    lookupC (apply_linear (fun _ => Coeff.val 9) [([0], Coeff.one)]) [0] =
      some (Coeff.val 9) :=
  (claim_C10_apply_linear_uniform (fun _ => Coeff.val 9) [([0], Coeff.one)]
    [0] Coeff.one 0 rfl).1

/-! ### The coefficient algebra is a commutative monoid under `add_coeffs` -/

theorem add_coeffs_zero_left (a : Coeff) : add_coeffs .zero a = a := by
  cases a <;> rfl

theorem add_coeffs_zero_right (a : Coeff) : add_coeffs a .zero = a := by
  cases a <;> rfl

theorem add_coeffs_comm (a b : Coeff) : add_coeffs a b = add_coeffs b a := by
  cases a <;> cases b <;> simp [add_coeffs] <;> ring

theorem add_coeffs_assoc (a b c : Coeff) :
    add_coeffs (add_coeffs a b) c = add_coeffs a (add_coeffs b c) := by
  cases a <;> cases b <;> cases c <;> simp [add_coeffs] <;> ring

theorem mul_coeffs_zero_right (mul : Int → Int → Int) (a : Coeff) :
    mul_coeffs mul a .zero = .zero := by
  cases a <;> rfl

/-- Coefficient-level distributivity, for a host multiply that distributes
over the host addition and has the promoted literal `1` as right unit. -/
theorem mul_coeffs_distrib (mul : Int → Int → Int)
    (hd : ∀ a b c : Int, mul a (b + c) = mul a b + mul a c)
    (h1 : ∀ a : Int, mul a 1 = a) (a b c : Coeff) :
    mul_coeffs mul a (add_coeffs b c) =
      add_coeffs (mul_coeffs mul a b) (mul_coeffs mul a c) := by
  cases a <;> cases b <;> cases c <;>
    simp [mul_coeffs, add_coeffs, hd, h1]
  rw [show (2 : Int) = 1 + 1 by norm_num, hd, h1]

theorem foldl_add_coeffs (l : List Coeff) (a : Coeff) :
    l.foldl add_coeffs a = add_coeffs a (csum l) := by
  induction l generalizing a with
  | nil => exact (add_coeffs_zero_right a).symm
  | cons c l ih =>
      simp only [csum, List.foldl_cons]
      rw [ih (add_coeffs a c), ih (add_coeffs Coeff.zero c),
        add_coeffs_zero_left, add_coeffs_assoc]

theorem csum_cons (c : Coeff) (l : List Coeff) :
    csum (c :: l) = add_coeffs c (csum l) := by
  simp only [csum, List.foldl_cons]
  rw [foldl_add_coeffs, add_coeffs_zero_left]
  rfl

theorem csum_append (l1 l2 : List Coeff) :
    csum (l1 ++ l2) = add_coeffs (csum l1) (csum l2) := by
  simp only [csum, List.foldl_append]
  rw [foldl_add_coeffs]
  rfl

theorem csum_map_add {α : Type} (l : List α) (f g : α → Coeff) :
    csum (l.map fun x => add_coeffs (f x) (g x)) =
      add_coeffs (csum (l.map f)) (csum (l.map g)) := by
  induction l with
  | nil => rfl
  | cons x l ih =>
      simp only [List.map_cons, csum_cons, ih]
      rw [add_coeffs_assoc, add_coeffs_assoc]
      congr 1
      rw [← add_coeffs_assoc, ← add_coeffs_assoc]
      congr 1
      exact add_coeffs_comm _ _

/-! ### Dict lookup lemmas -/

theorem getC_nil (m : Mon) : getC [] m = .zero := rfl

theorem lookupC_append (l1 l2 : Poly) (m : Mon) :
    lookupC (l1 ++ l2) m =
      match lookupC l1 m with
      | some c => some c
      | none => lookupC l2 m := by
  induction l1 with
  | nil => rfl
  | cons e l ih =>
      simp only [List.cons_append, lookupC]
      by_cases he : e.1 = m
      · rw [if_pos he, if_pos he]
      · rw [if_neg he, if_neg he]
        exact ih

theorem lookupC_eq_none (l : Poly) (m : Mon) :
    lookupC l m = none ↔ m ∉ l.map Prod.fst := by
  induction l with
  | nil => simp [lookupC]
  | cons e l ih =>
      simp only [lookupC, List.map_cons, List.mem_cons]
      by_cases he : e.1 = m
      · simp [he]
      · simp only [if_neg he, ih]
        constructor
        · intro h hmem
          rcases hmem with h1 | h2
          · exact he h1.symm
          · exact h h2
        · intro h
          exact fun hmem => h (Or.inr hmem)

theorem lookupC_map_value (F : Mon → Coeff → Coeff) (l : Poly) (m : Mon) :
    lookupC (l.map fun e => (e.1, F e.1 e.2)) m = (lookupC l m).map (F m) := by
  induction l with
  | nil => rfl
  | cons e l ih =>
      simp only [List.map_cons, lookupC]
      by_cases he : e.1 = m
      · subst he
        rw [if_pos rfl, if_pos rfl, Option.map_some']
      · rw [if_neg he, if_neg he, ih]

theorem lookupC_filter_keep (g : Mon × Coeff → Bool) (l : Poly) (m : Mon)
    (h : ∀ e : Mon × Coeff, e.1 = m → g e = true) :
    lookupC (l.filter g) m = lookupC l m := by
  induction l with
  | nil => rfl
  | cons e l ih =>
      rw [List.filter_cons]
      by_cases he : e.1 = m
      · rw [if_pos (h e he), lookupC, lookupC, if_pos he, if_pos he]
      · rw [lookupC, if_neg he]
        cases hg : g e
        · simp only [Bool.false_eq_true, if_false]
          exact ih
        · simp only [if_true]
          rw [lookupC, if_neg he]
          exact ih

theorem lookupC_filter_drop (g : Mon × Coeff → Bool) (l : Poly) (m : Mon)
    (h : ∀ e : Mon × Coeff, e.1 = m → g e = false) :
    lookupC (l.filter g) m = none := by
  induction l with
  | nil => rfl
  | cons e l ih =>
      rw [List.filter_cons]
      by_cases he : e.1 = m
      · rw [h e he]
        simp only [Bool.false_eq_true, if_false]
        exact ih
      · cases hg : g e
        · simp only [Bool.false_eq_true, if_false]
          exact ih
        · simp only [if_true]
          rw [lookupC, if_neg he]
          exact ih

/-- The value `add_polynomials` stores at any monomial is `add_coeffs` of the
two inputs' values there, an absent entry counting as the `zero` sentinel. -/
theorem getC_add_polynomials (p1 p2 : Poly) (m : Mon) :
    getC (add_polynomials p1 p2) m =
      add_coeffs (getC p1 m) (getC p2 m) := by
  have hmap : (p1.map fun e =>
      match lookupC p2 e.1 with
      | some c2 => (e.1, add_coeffs e.2 c2)
      | none => e)
      = p1.map fun e => (e.1,
          match lookupC p2 e.1 with
          | some c2 => add_coeffs e.2 c2
          | none => e.2) := by
    apply List.map_congr_left
    intro e _
    cases lookupC p2 e.1 <;> rfl
  unfold add_polynomials getC
  rw [hmap, lookupC_append,
    lookupC_map_value (fun k c =>
      match lookupC p2 k with
      | some c2 => add_coeffs c c2
      | none => c)]
  cases h1 : lookupC p1 m with
  | some c =>
      simp only [Option.map_some']
      cases h2 : lookupC p2 m with
      | some c2 => simp [h2]
      | none => simp [h2, add_coeffs_zero_right]
  | none =>
      simp only [Option.map_none']
      rw [lookupC_filter_keep]
      · cases h2 : lookupC p2 m <;> simp [add_coeffs_zero_left]
      · intro e he
        rw [he]
        simp [h1]

theorem getC_dinsert (p : Poly) (m : Mon) (c : Coeff) (n : Mon) :
    getC (dinsert p m c) n = if m = n then c else getC p n := by
  induction p with
  | nil =>
      unfold dinsert getC lookupC
      by_cases h : m = n
      · rw [if_pos h, if_pos h]
        rfl
      · rw [if_neg h, if_neg h]
        rfl
  | cons e rest ih =>
      unfold dinsert
      by_cases he : e.1 = m
      · rw [if_pos he]
        unfold getC lookupC
        by_cases hm : m = n
        · rw [if_pos hm, if_pos hm]
          rfl
        · rw [if_neg hm, if_neg hm]
          have hen : ¬ e.1 = n := fun hc => hm (he ▸ hc)
          rw [if_neg hen]
      · rw [if_neg he]
        unfold getC lookupC
        by_cases hen : e.1 = n
        · have hmn : ¬ m = n := fun hc => he (by rw [hen, hc])
          rw [if_pos hen, if_pos hen, if_neg hmn]
        · rw [if_neg hen, if_neg hen]
          exact ih

/-- Loop invariant of `mul_polynomials`: after folding a pair list into the
accumulator dict, the value at `m` is the accumulator's value plus the sum of
the pairs' contributions at `m`. -/
theorem getC_foldl_accumulate (mul : Int → Int → Int)
    (L : List ((Mon × Coeff) × (Mon × Coeff))) (acc : Poly) (m : Mon) :
    getC (L.foldl (accumulate mul) acc) m =
      add_coeffs (getC acc m) (csum (L.map (mulContrib mul m))) := by
  induction L generalizing acc with
  | nil => exact (add_coeffs_zero_right _).symm
  | cons e L ih =>
      rw [List.foldl_cons, ih, List.map_cons, csum_cons]
      unfold accumulate mulContrib
      rw [getC_dinsert]
      by_cases hm : Mon.make (heap_merge e.1.1 e.2.1) = m
      · rw [if_pos hm, if_pos hm, hm, add_coeffs_assoc]
      · rw [if_neg hm, if_neg hm, add_coeffs_zero_left]

/-- The value `mul_polynomials` stores at any monomial is the sum of the
contributions of all term pairs whose merged monomial is that monomial. -/
theorem getC_mul_polynomials (mul : Int → Int → Int) (p1 p2 : Poly)
    (m : Mon) :
    getC (mul_polynomials mul p1 p2) m =
      csum ((prodL p1 p2).map (mulContrib mul m)) := by
  unfold mul_polynomials
  rw [getC_foldl_accumulate, getC_nil, add_coeffs_zero_left]

theorem csum_prod (mul : Int → Int → Int) (p A : Poly) (m : Mon) :
    csum ((prodL p A).map (mulContrib mul m)) =
      csum (p.map fun e1 => csum (A.map fun e2 => mulContrib mul m (e1, e2))) := by
  induction p with
  | nil => rfl
  | cons e p ih =>
      simp only [prodL, List.flatMap_cons, List.map_append, csum_append,
        List.map_cons, csum_cons, List.map_map]
      rw [← ih]
      simp only [prodL]
      rfl

theorem csum_map_zero {α : Type} (l : List α) (f : α → Coeff)
    (h : ∀ x ∈ l, f x = .zero) : csum (l.map f) = .zero := by
  induction l with
  | nil => rfl
  | cons x l ih =>
      rw [List.map_cons, csum_cons, h x (List.mem_cons_self x l),
        add_coeffs_zero_left]
      exact ih fun y hy => h y (List.mem_cons_of_mem x hy)

theorem ite_add_coeffs_split (c : Prop) [Decidable c] (x y : Coeff) :
    (if c then add_coeffs x y else .zero) =
      add_coeffs (if c then x else .zero) (if c then y else .zero) := by
  by_cases h : c
  · rw [if_pos h, if_pos h, if_pos h]
  · rw [if_neg h, if_neg h, if_neg h]
    rfl

theorem csum_filter (g : Mon × Coeff → Bool) (l : Poly)
    (h : (Mon × Coeff) → Coeff) :
    csum ((l.filter g).map h) =
      csum (l.map fun e => if g e = true then h e else .zero) := by
  induction l with
  | nil => rfl
  | cons e l ih =>
      rw [List.filter_cons, List.map_cons, csum_cons]
      cases hg : g e
      · simp only [Bool.false_eq_true, if_false]
        rw [ih, add_coeffs_zero_left]
      · simp only [if_true]
        rw [List.map_cons, csum_cons, ih]

/-- Summing an indicator that fires on a single dict key collapses to the
dict's value at that key (a missing key counting as `zero`). -/
theorem csum_single_key (r : Poly) (hr : (r.map Prod.fst).Nodup) (k : Mon)
    (M : Mon → Prop) [DecidablePred M] (F : Coeff → Coeff)
    (hF : F .zero = .zero) :
    csum (r.map fun er => if er.1 = k ∧ M er.1 then F er.2 else .zero) =
      if M k then F (getC r k) else .zero := by
  induction r with
  | nil =>
      rw [List.map_nil]
      show Coeff.zero = _
      rw [getC_nil, hF, ite_self]
  | cons er r ih =>
      have hr' : (r.map Prod.fst).Nodup := (List.nodup_cons.mp hr).2
      have hnot : er.1 ∉ r.map Prod.fst := (List.nodup_cons.mp hr).1
      rw [List.map_cons, csum_cons]
      by_cases hk : er.1 = k
      · have htail : csum (r.map fun e =>
            if e.1 = k ∧ M e.1 then F e.2 else .zero) = .zero := by
          apply csum_map_zero
          intro e he
          have : ¬ e.1 = k := by
            intro hc
            exact hnot (hk ▸ hc ▸ List.mem_map_of_mem Prod.fst he)
          simp [this]
        rw [htail, add_coeffs_zero_right]
        have hget : getC (er :: r) k = er.2 := by
          unfold getC
          rw [lookupC_cons, if_pos hk]
          rfl
        rw [hget]
        subst hk
        simp
      · have hget : getC (er :: r) k = getC r k := by
          unfold getC
          rw [lookupC_cons, if_neg hk]
        rw [hget, ih hr']
        simp [hk, add_coeffs_zero_left]

/-- The dict form of exchanging a sum over `q`'s keys looked up in `r` for a
sum over `r`'s entries restricted to keys present in `q`. -/
theorem csum_inter (mul : Int → Int → Int) (c1 : Coeff) (m1 : Mon) (m : Mon)
    (q r : Poly) (hq : (q.map Prod.fst).Nodup) (hr : (r.map Prod.fst).Nodup) :
    csum (q.map fun e2 =>
        if Mon.make (heap_merge m1 e2.1) = m
        then mul_coeffs mul c1 (getC r e2.1) else .zero) =
      csum (r.map fun er =>
        if (lookupC q er.1).isSome = true ∧ Mon.make (heap_merge m1 er.1) = m
        then mul_coeffs mul c1 er.2 else .zero) := by
  induction q with
  | nil =>
      rw [List.map_nil]
      symm
      show csum _ = Coeff.zero
      apply csum_map_zero
      intro er _
      simp [lookupC]
  | cons e q ih =>
      have hq' : (q.map Prod.fst).Nodup := (List.nodup_cons.mp hq).2
      have hnot : e.1 ∉ q.map Prod.fst := (List.nodup_cons.mp hq).1
      rw [List.map_cons, csum_cons, ih hq',
        ← csum_single_key r hr e.1 (fun k => Mon.make (heap_merge m1 k) = m)
          (mul_coeffs mul c1) (mul_coeffs_zero_right mul c1),
        ← csum_map_add]
      apply congrArg
      apply List.map_congr_left
      intro er _
      by_cases her : er.1 = e.1
      · have hnone : lookupC q er.1 = none :=
          (lookupC_eq_none q er.1).mpr (her ▸ hnot)
        have hhead : lookupC (e :: q) er.1 = some e.2 := by
          rw [lookupC, if_pos her.symm]
        rw [hnone, hhead]
        simp [her, add_coeffs_zero_right]
      · have hhead : lookupC (e :: q) er.1 = lookupC q er.1 := by
          rw [lookupC, if_neg fun hc => her hc.symm]
        rw [hhead]
        simp [her, add_coeffs_zero_left]

/-- Claim C2, as stated over an arbitrary coefficient multiplication, fails:
an explicit multiplication (constantly `5`), three explicit one-term
polynomials and the empty monomial on which the two sides store different
coefficients.  The left side multiplies by `q + r = {(): 2}` directly
(giving `5`), the right side adds the two sentinel-short-circuited products
(giving `2 + 2 = 4`). -/
theorem claim_C2_counterexample :
    getC (mul_polynomials (fun _ _ => 5) [(Mon.make [], Coeff.val 2)]
        (add_polynomials [(Mon.make [], Coeff.one)]
          [(Mon.make [], Coeff.one)])) (Mon.make []) ≠
      getC (add_polynomials
        (mul_polynomials (fun _ _ => 5) [(Mon.make [], Coeff.val 2)]
          [(Mon.make [], Coeff.one)])
        (mul_polynomials (fun _ _ => 5) [(Mon.make [], Coeff.val 2)]
          [(Mon.make [], Coeff.one)])) (Mon.make []) := by
  decide

/-- Claim C2 (amended): distributivity of `mul_polynomials` over
`add_polynomials` holds at every monomial — missing and `Zero` entries
counting as equal — for every coefficient multiplication that distributes
over the host addition and admits the promoted literal `1` as a right unit
(in particular for the host multiplication the tracer actually supplies),
`q` and `r` being dicts (no duplicate keys). -/
theorem claim_C2_distributivity (mul : Int → Int → Int)
    (hd : ∀ a b c : Int, mul a (b + c) = mul a b + mul a c)
    (h1 : ∀ a : Int, mul a 1 = a)
    (p q r : Poly) (hq : (q.map Prod.fst).Nodup)
    (hr : (r.map Prod.fst).Nodup) (m : Mon) :
    getC (mul_polynomials mul p (add_polynomials q r)) m =
      getC (add_polynomials (mul_polynomials mul p q)
        (mul_polynomials mul p r)) m := by
  rw [getC_add_polynomials]
  simp only [getC_mul_polynomials, csum_prod]
  rw [← csum_map_add]
  apply congrArg
  apply List.map_congr_left
  intro e1 _
  unfold add_polynomials
  rw [List.map_append, csum_append]
  have hqpart : ((q.map fun e =>
      match lookupC r e.1 with
      | some c2 => (e.1, add_coeffs e.2 c2)
      | none => e).map fun e2 => mulContrib mul m (e1, e2))
      = q.map fun e2 => add_coeffs (mulContrib mul m (e1, e2))
          (if Mon.make (heap_merge e1.1 e2.1) = m
           then mul_coeffs mul e1.2 (getC r e2.1) else .zero) := by
    rw [List.map_map]
    apply List.map_congr_left
    intro e2 _
    show mulContrib mul m (e1,
      match lookupC r e2.1 with
      | some c2 => (e2.1, add_coeffs e2.2 c2)
      | none => e2) = _
    cases hlk : lookupC r e2.1 with
    | none =>
        unfold getC
        rw [hlk]
        show mulContrib mul m (e1, e2) = _
        rw [show (Option.getD none Coeff.zero) = Coeff.zero from rfl,
          mul_coeffs_zero_right, ite_self, add_coeffs_zero_right]
    | some c2 =>
        unfold getC mulContrib
        rw [hlk]
        show (if Mon.make (heap_merge e1.1 e2.1) = m
            then mul_coeffs mul e1.2 (add_coeffs e2.2 c2) else Coeff.zero) = _
        rw [mul_coeffs_distrib mul hd h1, ite_add_coeffs_split]
        rfl
  rw [hqpart, csum_map_add, csum_filter]
  have hsplit : (r.map fun e2 => mulContrib mul m (e1, e2))
      = r.map fun er => add_coeffs
          (if ((lookupC q er.1).isNone = true)
           then mulContrib mul m (e1, er) else .zero)
          (if ((lookupC q er.1).isNone = true)
           then .zero else mulContrib mul m (e1, er)) := by
    apply List.map_congr_left
    intro er _
    by_cases hg : (lookupC q er.1).isNone = true
    · rw [if_pos hg, if_pos hg, add_coeffs_zero_right]
    · rw [if_neg hg, if_neg hg, add_coeffs_zero_left]
  rw [hsplit, csum_map_add]
  have hnotg : (r.map fun er =>
      if ((lookupC q er.1).isNone = true)
      then Coeff.zero else mulContrib mul m (e1, er))
      = r.map fun er =>
          if (lookupC q er.1).isSome = true ∧
              Mon.make (heap_merge e1.1 er.1) = m
          then mul_coeffs mul e1.2 er.2 else .zero := by
    apply List.map_congr_left
    intro er _
    cases hlk : lookupC q er.1 with
    | none => simp [hlk]
    | some c => simp [hlk, mulContrib]
  rw [hnotg, ← csum_inter mul e1.2 e1.1 m q r hq hr]
  rw [add_coeffs_assoc]
  congr 1
  exact add_coeffs_comm _ _

/-- Witness for C2 at the host multiplication and concrete polynomials:
`(x + 1) * (x + x) = (x + 1) * x + (x + 1) * x` at the degree-one
monomial `[0]`. -/
theorem claim_C2_witness :
    getC (mul_polynomials (· * ·) [([], Coeff.val 1), ([0], Coeff.one)]
        (add_polynomials [([0], Coeff.one)] [([0], Coeff.one)])) [0] =
      getC (add_polynomials
        (mul_polynomials (· * ·) [([], Coeff.val 1), ([0], Coeff.one)]
          [([0], Coeff.one)])
        (mul_polynomials (· * ·) [([], Coeff.val 1), ([0], Coeff.one)]
          [([0], Coeff.one)])) [0] :=
  claim_C2_distributivity (· * ·) (fun a b c => by ring) (fun a => by ring)
    [([], Coeff.val 1), ([0], Coeff.one)] [([0], Coeff.one)]
    [([0], Coeff.one)] (by decide) (by decide) [0]

/-! ### Host-domain reading of the coefficient algebra -/

theorem esem_add (a b : Coeff) : esem (add_coeffs a b) = esem a + esem b := by
  cases a <;> cases b <;> simp [add_coeffs, esem]

theorem esem_mul (a b : Coeff) :
    esem (mul_coeffs (· * ·) a b) = esem a * esem b := by
  cases a <;> cases b <;> simp [mul_coeffs, esem]

theorem sum_map_neg_int {α : Type} (l : List α) (f : α → Int) :
    (l.map fun e => -(f e)).sum = -(l.map f).sum := by
  induction l with
  | nil => simp
  | cons e l ih => simp [ih]; ring

theorem psem_nil (x : Int) : psem x [] = 0 := rfl

theorem psem_cons (x : Int) (e : Mon × Coeff) (p : Poly) :
    psem x (e :: p) = esem e.2 * x ^ e.1.length + psem x p := by
  simp [psem]

theorem length_Mon_make (l : List Nat) : (Mon.make l).length = l.length :=
  List.length_insertionSort _ l

theorem length_heap_merge (a b : List Nat) :
    (heap_merge a b).length = a.length + b.length := by
  unfold heap_merge
  rw [List.length_insertionSort, List.length_append]

theorem mem_Mon_make_heap_merge (s : Nat) (a b : List Nat) :
    s ∈ Mon.make (heap_merge a b) ↔ s ∈ a ∨ s ∈ b := by
  unfold Mon.make heap_merge
  rw [List.mem_insertionSort, List.mem_insertionSort, List.mem_append]

/-- Changing one dict entry changes the polynomial's value by the difference
of the two coefficients at that monomial's degree. -/
theorem psem_dinsert (x : Int) (p : Poly) (m : Mon) (c : Coeff)
    (h : (p.map Prod.fst).Nodup) :
    psem x (dinsert p m c) =
      psem x p + (esem c - esem (getC p m)) * x ^ m.length := by
  induction p with
  | nil =>
      show psem x [(m, c)] = _
      rw [psem_cons, psem_nil, getC_nil]
      show _ = 0 + (esem c - esem Coeff.zero) * x ^ m.length
      simp [esem]
  | cons e rest ih =>
      have h' : (rest.map Prod.fst).Nodup := (List.nodup_cons.mp h).2
      unfold dinsert
      by_cases he : e.1 = m
      · rw [if_pos he, psem_cons, psem_cons]
        have hget : getC (e :: rest) m = e.2 := by
          unfold getC
          rw [lookupC_cons, if_pos he]
          rfl
        rw [hget, he]
        ring
      · rw [if_neg he, psem_cons, psem_cons, ih h']
        have hget : getC (e :: rest) m = getC rest m := by
          unfold getC
          rw [lookupC_cons, if_neg he]
        rw [hget]
        ring

theorem dinsert_keys_mem (p : Poly) (m : Mon) (c : Coeff) (k : Mon) :
    k ∈ (dinsert p m c).map Prod.fst ↔ k ∈ p.map Prod.fst ∨ k = m := by
  induction p with
  | nil => simp [dinsert]
  | cons e rest ih =>
      unfold dinsert
      by_cases he : e.1 = m
      · subst he
        rw [if_pos rfl]
        simp only [List.map_cons, List.mem_cons]
        tauto
      · rw [if_neg he]
        simp only [List.map_cons, List.mem_cons, ih]
        tauto

theorem dinsert_nodup (p : Poly) (m : Mon) (c : Coeff)
    (h : (p.map Prod.fst).Nodup) : ((dinsert p m c).map Prod.fst).Nodup := by
  induction p with
  | nil => simp [dinsert]
  | cons e rest ih =>
      obtain ⟨hnot, htail⟩ := List.nodup_cons.mp h
      unfold dinsert
      by_cases he : e.1 = m
      · subst he
        rw [if_pos rfl]
        simpa using h
      · rw [if_neg he, List.map_cons, List.nodup_cons]
        refine ⟨?_, ih htail⟩
        rw [dinsert_keys_mem]
        rintro (hmem | hmem)
        · exact hnot (by simpa using hmem)
        · exact he hmem

/-- Value change of one accumulation step: the pair's coefficient product
enters at the merged monomial's degree. -/
theorem psem_accumulate (x : Int) (mul : Int → Int → Int) (acc : Poly)
    (e : (Mon × Coeff) × (Mon × Coeff)) (h : (acc.map Prod.fst).Nodup) :
    psem x (accumulate mul acc e) =
      psem x acc + esem (mul_coeffs mul e.1.2 e.2.2) *
        x ^ (e.1.1.length + e.2.1.length) := by
  unfold accumulate
  rw [psem_dinsert x acc _ _ h, esem_add, length_Mon_make, length_heap_merge]
  ring

theorem accumulate_nodup (mul : Int → Int → Int) (acc : Poly)
    (e : (Mon × Coeff) × (Mon × Coeff)) (h : (acc.map Prod.fst).Nodup) :
    ((accumulate mul acc e).map Prod.fst).Nodup := by
  unfold accumulate
  exact dinsert_nodup _ _ _ h

theorem foldl_accumulate_nodup (mul : Int → Int → Int)
    (L : List ((Mon × Coeff) × (Mon × Coeff))) (acc : Poly)
    (h : (acc.map Prod.fst).Nodup) :
    ((L.foldl (accumulate mul) acc).map Prod.fst).Nodup := by
  induction L generalizing acc with
  | nil => exact h
  | cons e L ih => exact ih _ (accumulate_nodup mul acc e h)

theorem psem_foldl_accumulate (x : Int) (mul : Int → Int → Int)
    (L : List ((Mon × Coeff) × (Mon × Coeff))) (acc : Poly)
    (h : (acc.map Prod.fst).Nodup) :
    psem x (L.foldl (accumulate mul) acc) =
      psem x acc + (L.map fun e => esem (mul_coeffs mul e.1.2 e.2.2) *
        x ^ (e.1.1.length + e.2.1.length)).sum := by
  induction L generalizing acc with
  | nil => simp
  | cons e L ih =>
      rw [List.foldl_cons, ih _ (accumulate_nodup mul acc e h),
        psem_accumulate x mul acc e h, List.map_cons, List.sum_cons]
      ring

theorem sum_prodL (p q : Poly) (F G : Mon × Coeff → Int) :
    ((prodL p q).map fun e => F e.1 * G e.2).sum =
      (p.map F).sum * (q.map G).sum := by
  induction p with
  | nil => simp [prodL]
  | cons e p ih =>
      simp only [prodL, List.flatMap_cons, List.map_append, List.sum_append,
        List.map_cons, List.sum_cons, List.map_map]
      rw [show ((fun e' : (Mon × Coeff) × (Mon × Coeff) => F e'.1 * G e'.2) ∘
          fun e2 => (e, e2)) = fun e2 => F e * G e2 from rfl]
      rw [List.sum_map_mul_left]
      simp only [prodL] at ih
      rw [ih]
      ring

/-- `mul_polynomials` with the host multiplication computes the product of
the two polynomials' values. -/
theorem psem_mul_polynomials (x : Int) (p q : Poly) :
    psem x (mul_polynomials (· * ·) p q) = psem x p * psem x q := by
  unfold mul_polynomials
  rw [psem_foldl_accumulate x _ _ [] (by simp), psem_nil]
  have : ((prodL p q).map fun e => esem (mul_coeffs (· * ·) e.1.2 e.2.2) *
      x ^ (e.1.1.length + e.2.1.length)).sum =
      ((prodL p q).map fun e => (esem e.1.2 * x ^ e.1.1.length) *
        (esem e.2.2 * x ^ e.2.1.length)).sum := by
    apply congrArg
    apply List.map_congr_left
    intro e _
    rw [esem_mul, pow_add]
    ring
  rw [this, sum_prodL p q (fun e => esem e.2 * x ^ e.1.length)
    (fun e => esem e.2 * x ^ e.1.length)]
  simp [psem]

theorem isum_filter (g : Mon × Coeff → Bool) (l : Poly)
    (f : (Mon × Coeff) → Int) :
    ((l.filter g).map f).sum =
      (l.map fun e => if g e = true then f e else 0).sum := by
  induction l with
  | nil => rfl
  | cons e l ih =>
      rw [List.filter_cons, List.map_cons, List.sum_cons]
      cases hg : g e
      · simp only [Bool.false_eq_true, if_false]
        rw [ih, zero_add]
      · simp only [if_true]
        rw [List.map_cons, List.sum_cons, ih]

theorem isum_single_key (r : Poly) (hr : (r.map Prod.fst).Nodup) (k : Mon)
    (w : Mon → Int) :
    (r.map fun er => if er.1 = k then esem er.2 * w er.1 else 0).sum =
      esem (getC r k) * w k := by
  induction r with
  | nil =>
      rw [List.map_nil, List.sum_nil, getC_nil]
      show 0 = esem Coeff.zero * w k
      simp [esem]
  | cons er r ih =>
      have hr' : (r.map Prod.fst).Nodup := (List.nodup_cons.mp hr).2
      have hnot : er.1 ∉ r.map Prod.fst := (List.nodup_cons.mp hr).1
      rw [List.map_cons, List.sum_cons]
      by_cases hk : er.1 = k
      · have htail : (r.map fun e =>
            if e.1 = k then esem e.2 * w e.1 else 0).sum = 0 := by
          rw [List.sum_eq_zero]
          intro v hv
          rw [List.mem_map] at hv
          obtain ⟨e, he, rfl⟩ := hv
          have : ¬ e.1 = k := by
            intro hc
            exact hnot (hk ▸ hc ▸ List.mem_map_of_mem Prod.fst he)
          simp [this]
        have hget : getC (er :: r) k = er.2 := by
          unfold getC
          rw [lookupC_cons, if_pos hk]
          rfl
        rw [htail, hget, if_pos hk, hk, add_zero]
      · have hget : getC (er :: r) k = getC r k := by
          unfold getC
          rw [lookupC_cons, if_neg hk]
        rw [hget, if_neg hk, zero_add, ih hr']

theorem isum_inter (p1 p2 : Poly) (h1 : (p1.map Prod.fst).Nodup)
    (h2 : (p2.map Prod.fst).Nodup) (w : Mon → Int) :
    (p1.map fun e => esem (getC p2 e.1) * w e.1).sum =
      (p2.map fun er =>
        if (lookupC p1 er.1).isSome = true
        then esem er.2 * w er.1 else 0).sum := by
  induction p1 with
  | nil =>
      rw [List.map_nil, List.sum_nil]
      symm
      rw [List.sum_eq_zero]
      intro v hv
      rw [List.mem_map] at hv
      obtain ⟨e, he, rfl⟩ := hv
      simp [lookupC]
  | cons e q ih =>
      have hq' : (q.map Prod.fst).Nodup := (List.nodup_cons.mp h1).2
      have hnot : e.1 ∉ q.map Prod.fst := (List.nodup_cons.mp h1).1
      rw [List.map_cons, List.sum_cons, ih hq',
        ← isum_single_key p2 h2 e.1 w, ← List.sum_map_add]
      apply congrArg
      apply List.map_congr_left
      intro er _
      by_cases her : er.1 = e.1
      · have hnone : lookupC q er.1 = none :=
          (lookupC_eq_none q er.1).mpr (her ▸ hnot)
        have hhead : lookupC (e :: q) er.1 = some e.2 := by
          rw [lookupC_cons, if_pos her.symm]
        rw [hnone, hhead]
        simp [her]
      · have hhead : lookupC (e :: q) er.1 = lookupC q er.1 := by
          rw [lookupC_cons, if_neg fun hc => her hc.symm]
        rw [hhead]
        simp [her]

/-- `add_polynomials` computes the sum of the two polynomials' values. -/
theorem psem_add_polynomials (x : Int) (p1 p2 : Poly)
    (h1 : (p1.map Prod.fst).Nodup) (h2 : (p2.map Prod.fst).Nodup) :
    psem x (add_polynomials p1 p2) = psem x p1 + psem x p2 := by
  unfold add_polynomials psem
  rw [List.map_append, List.sum_append, List.map_map, isum_filter]
  have hmap : (p1.map ((fun e : Mon × Coeff => esem e.2 * x ^ e.1.length) ∘
      fun e => match lookupC p2 e.1 with
        | some c2 => (e.1, add_coeffs e.2 c2)
        | none => e))
      = p1.map fun e => esem e.2 * x ^ e.1.length +
          esem (getC p2 e.1) * x ^ e.1.length := by
    apply List.map_congr_left
    intro e _
    show (fun e : Mon × Coeff => esem e.2 * x ^ e.1.length)
      (match lookupC p2 e.1 with
        | some c2 => (e.1, add_coeffs e.2 c2)
        | none => e) = _
    cases hlk : lookupC p2 e.1 with
    | none =>
        unfold getC
        rw [hlk]
        show esem e.2 * x ^ e.1.length = _
        simp [esem]
    | some c2 =>
        unfold getC
        rw [hlk]
        show esem (add_coeffs e.2 c2) * x ^ e.1.length = _
        rw [esem_add]
        show _ = esem e.2 * x ^ e.1.length + esem ((some c2).getD .zero) * _
        show _ = esem e.2 * x ^ e.1.length + esem c2 * x ^ e.1.length
        ring
  rw [hmap, List.sum_map_add,
    isum_inter p1 p2 h1 h2 (fun m => x ^ m.length)]
  have hsplit : (p2.map fun e => esem e.2 * x ^ e.1.length)
      = p2.map fun er =>
          (if (lookupC p1 er.1).isSome = true
           then esem er.2 * x ^ er.1.length else 0) +
          (if ((lookupC p1 er.1).isNone = true)
           then esem er.2 * x ^ er.1.length else 0) := by
    apply List.map_congr_left
    intro er _
    cases hlk : lookupC p1 er.1 <;> simp [hlk]
  rw [hsplit, List.sum_map_add]
  ring

/-! ### Preservation of the tracing invariant -/

theorem coeff_val_of_ne (c : Coeff) (h0 : c ≠ .zero) (h1 : c ≠ .one) :
    ∃ v, c = .val v := by
  cases c
  · exact absurd rfl h0
  · exact absurd rfl h1
  · exact ⟨_, rfl⟩

theorem add_coeffs_ne_zero (a b : Coeff) (ha : a ≠ .zero) (hb : b ≠ .zero) :
    add_coeffs a b ≠ .zero := by
  cases a <;> cases b <;> simp_all [add_coeffs]

theorem add_coeffs_val_of_ne (a b : Coeff) (ha : a ≠ .zero)
    (hb : b ≠ .zero) : ∃ v, add_coeffs a b = .val v := by
  cases a <;> cases b <;> simp_all [add_coeffs]

theorem mul_coeffs_ne_zero (mul : Int → Int → Int) (a b : Coeff)
    (ha : a ≠ .zero) (hb : b ≠ .zero) : mul_coeffs mul a b ≠ .zero := by
  cases a <;> cases b <;> simp_all [mul_coeffs]

theorem lookupC_some_mem (l : Poly) (m : Mon) (c : Coeff)
    (h : lookupC l m = some c) : (m, c) ∈ l := by
  induction l with
  | nil => simp [lookupC] at h
  | cons e rest ih =>
      rw [lookupC_cons] at h
      by_cases he : e.1 = m
      · rw [if_pos he] at h
        injection h with h
        have hme : (m, c) = e := by
          rw [← he, ← h]
        rw [hme]
        exact List.mem_cons_self e rest
      · rw [if_neg he] at h
        exact List.mem_cons_of_mem e (ih h)

theorem getC_cases (p : Poly) (m : Mon) :
    getC p m = .zero ∨ (m, getC p m) ∈ p := by
  cases hlk : lookupC p m with
  | none =>
      left
      unfold getC
      rw [hlk]
      rfl
  | some c =>
      right
      have : getC p m = c := by
        unfold getC
        rw [hlk]
        rfl
      rw [this]
      exact lookupC_some_mem p m c hlk

/-- The entry-shape part of the invariant, without the key and non-emptiness
components (those are handled separately). -/
def GoodEntries (p : Poly) : Prop :=
  (∀ e ∈ p, ∀ s ∈ e.1, s = 0) ∧
  (∀ e ∈ p, e.2 ≠ Coeff.zero) ∧
  (∀ e ∈ p, e.1 = [] → e.2 ≠ Coeff.one)

theorem mem_dinsert (p : Poly) (m : Mon) (c : Coeff) (e : Mon × Coeff)
    (h : e ∈ dinsert p m c) : e = (m, c) ∨ e ∈ p := by
  induction p with
  | nil => simpa [dinsert] using h
  | cons e0 rest ih =>
      unfold dinsert at h
      by_cases he : e0.1 = m
      · rw [if_pos he] at h
        rcases List.mem_cons.mp h with h | h
        · exact Or.inl h
        · exact Or.inr (List.mem_cons_of_mem e0 h)
      · rw [if_neg he] at h
        rcases List.mem_cons.mp h with h | h
        · exact Or.inr (h ▸ List.mem_cons_self e0 rest)
        · rcases ih h with h | h
          · exact Or.inl h
          · exact Or.inr (List.mem_cons_of_mem e0 h)

theorem goodEntries_accumulate (mul : Int → Int → Int) (acc : Poly)
    (pr : (Mon × Coeff) × (Mon × Coeff)) (hacc : GoodEntries acc)
    (hs1 : ∀ s ∈ pr.1.1, s = 0) (hs2 : ∀ s ∈ pr.2.1, s = 0)
    (hz1 : pr.1.2 ≠ .zero) (hz2 : pr.2.2 ≠ .zero)
    (ho1 : pr.1.1 = [] → pr.1.2 ≠ .one)
    (ho2 : pr.2.1 = [] → pr.2.2 ≠ .one) :
    GoodEntries (accumulate mul acc pr) := by
  obtain ⟨haS, haZ, haO⟩ := hacc
  unfold accumulate
  set mon := Mon.make (heap_merge pr.1.1 pr.2.1) with hmon
  set newc := add_coeffs (getC acc mon) (mul_coeffs mul pr.1.2 pr.2.2)
    with hnewc
  have hmulz : mul_coeffs mul pr.1.2 pr.2.2 ≠ .zero :=
    mul_coeffs_ne_zero mul _ _ hz1 hz2
  have hnewz : newc ≠ .zero := by
    rcases getC_cases acc mon with hg | hg
    · rw [hnewc, hg, add_coeffs_zero_left]
      exact hmulz
    · exact add_coeffs_ne_zero _ _ (haZ _ hg) hmulz
  have hmons : ∀ s ∈ mon, s = 0 := by
    intro s hs
    rcases (mem_Mon_make_heap_merge s pr.1.1 pr.2.1).mp hs with hs | hs
    · exact hs1 s hs
    · exact hs2 s hs
  have hmono : mon = [] → newc ≠ .one := by
    intro hnil
    have hlen : pr.1.1.length + pr.2.1.length = 0 := by
      have h2 := length_Mon_make (heap_merge pr.1.1 pr.2.1)
      rw [← hmon, hnil, length_heap_merge] at h2
      simp only [List.length_nil] at h2
      omega
    have h1nil : pr.1.1 = [] := by
      have : pr.1.1.length = 0 := by omega
      exact List.length_eq_zero.mp this
    have h2nil : pr.2.1 = [] := by
      have : pr.2.1.length = 0 := by omega
      exact List.length_eq_zero.mp this
    obtain ⟨v1, hv1⟩ := coeff_val_of_ne _ hz1 (ho1 h1nil)
    obtain ⟨v2, hv2⟩ := coeff_val_of_ne _ hz2 (ho2 h2nil)
    have hmulv : mul_coeffs mul pr.1.2 pr.2.2 = .val (mul v1 v2) := by
      rw [hv1, hv2]
      rfl
    rcases getC_cases acc mon with hg | hg
    · rw [hnewc, hg, add_coeffs_zero_left, hmulv]
      intro hc
      exact Coeff.noConfusion hc
    · obtain ⟨w, hw⟩ := coeff_val_of_ne (getC acc mon) (haZ _ hg)
        (haO _ hg hnil)
      rw [hnewc, hw, hmulv]
      intro hc
      exact Coeff.noConfusion hc
  refine ⟨?_, ?_, ?_⟩ <;> intro e he <;>
    rcases mem_dinsert _ _ _ _ he with h | h
  · intro s hs
    rw [h] at hs
    exact hmons s hs
  · exact haS e h
  · rw [h]
    exact hnewz
  · exact haZ e h
  · intro hnil
    rw [h] at hnil ⊢
    exact hmono hnil
  · exact haO e h

theorem prodL_mem (p1 p2 : Poly) (pr : (Mon × Coeff) × (Mon × Coeff))
    (h : pr ∈ prodL p1 p2) : pr.1 ∈ p1 ∧ pr.2 ∈ p2 := by
  unfold prodL at h
  rw [List.mem_flatMap] at h
  obtain ⟨e1, he1, h⟩ := h
  rw [List.mem_map] at h
  obtain ⟨e2, he2, rfl⟩ := h
  exact ⟨he1, he2⟩

theorem goodEntries_foldl (mul : Int → Int → Int)
    (L : List ((Mon × Coeff) × (Mon × Coeff))) (p1 p2 : Poly) (acc : Poly)
    (hacc : GoodEntries acc) (hg1 : GoodEntries p1) (hg2 : GoodEntries p2)
    (hL : ∀ pr ∈ L, pr.1 ∈ p1 ∧ pr.2 ∈ p2) :
    GoodEntries (L.foldl (accumulate mul) acc) := by
  induction L generalizing acc with
  | nil => exact hacc
  | cons pr L ih =>
      rw [List.foldl_cons]
      have hpr := hL pr (List.mem_cons_self pr L)
      exact ih _
        (goodEntries_accumulate mul acc pr hacc
          (hg1.1 _ hpr.1) (hg2.1 _ hpr.2)
          (hg1.2.1 _ hpr.1) (hg2.2.1 _ hpr.2)
          (hg1.2.2 _ hpr.1) (hg2.2.2 _ hpr.2))
        fun pr' h => hL pr' (List.mem_cons_of_mem pr h)

theorem dinsert_ne_nil (p : Poly) (m : Mon) (c : Coeff) :
    dinsert p m c ≠ [] := by
  cases p with
  | nil => simp [dinsert]
  | cons e rest =>
      unfold dinsert
      by_cases he : e.1 = m
      · rw [if_pos he]
        simp
      · rw [if_neg he]
        simp

theorem foldl_accumulate_ne_nil (mul : Int → Int → Int)
    (L : List ((Mon × Coeff) × (Mon × Coeff))) (acc : Poly)
    (hacc : acc ≠ []) : L.foldl (accumulate mul) acc ≠ [] := by
  induction L generalizing acc with
  | nil => exact hacc
  | cons pr L ih =>
      rw [List.foldl_cons]
      exact ih _ (dinsert_ne_nil _ _ _)

/-- `mul_polynomials` preserves the tracing invariant. -/
theorem good_mul_polynomials (mul : Int → Int → Int) (p1 p2 : Poly)
    (g1 : GoodPoly p1) (g2 : GoodPoly p2) :
    GoodPoly (mul_polynomials mul p1 p2) := by
  obtain ⟨n1, s1, z1, o1, ne1⟩ := g1
  obtain ⟨n2, s2, z2, o2, ne2⟩ := g2
  have hGE := goodEntries_foldl mul (prodL p1 p2) p1 p2 []
    ⟨by simp, by simp, by simp⟩ ⟨s1, z1, o1⟩ ⟨s2, z2, o2⟩
    (fun pr h => prodL_mem p1 p2 pr h)
  have hprod : prodL p1 p2 ≠ [] := by
    rcases p1 with _ | ⟨e1, p1'⟩
    · exact absurd rfl ne1
    rcases p2 with _ | ⟨e2, p2'⟩
    · exact absurd rfl ne2
    simp [prodL]
  refine ⟨foldl_accumulate_nodup mul _ [] (by simp), hGE.1, hGE.2.1,
    hGE.2.2, ?_⟩
  unfold mul_polynomials
  rcases hpl : prodL p1 p2 with _ | ⟨pr, L⟩
  · exact absurd hpl hprod
  · rw [List.foldl_cons]
    exact foldl_accumulate_ne_nil mul L _ (dinsert_ne_nil _ _ _)

/-- The keys of the intersection-and-left part of `add_polynomials` are
exactly the left dict's keys. -/
theorem add_polynomials_left_keys (p1 p2 : Poly) :
    ((p1.map fun e =>
      match lookupC p2 e.1 with
      | some c2 => (e.1, add_coeffs e.2 c2)
      | none => e).map Prod.fst) = p1.map Prod.fst := by
  rw [List.map_map]
  apply List.map_congr_left
  intro e _
  show Prod.fst (match lookupC p2 e.1 with
    | some c2 => (e.1, add_coeffs e.2 c2)
    | none => e) = e.1
  cases lookupC p2 e.1 <;> rfl

/-- Membership in `add_polynomials`: every entry comes from the left dict
(possibly with the right dict's coefficient added in) or from the right
dict. -/
theorem mem_add_polynomials (p1 p2 : Poly) (e : Mon × Coeff)
    (h : e ∈ add_polynomials p1 p2) :
    (∃ e1 ∈ p1, e.1 = e1.1 ∧
      (e.2 = e1.2 ∨ ∃ c2, lookupC p2 e1.1 = some c2 ∧
        e.2 = add_coeffs e1.2 c2)) ∨ e ∈ p2 := by
  unfold add_polynomials at h
  rcases List.mem_append.mp h with h | h
  · left
    rw [List.mem_map] at h
    obtain ⟨e1, he1, he⟩ := h
    refine ⟨e1, he1, ?_⟩
    cases hlk : lookupC p2 e1.1 with
    | none =>
        rw [hlk] at he
        rw [← he]
        exact ⟨rfl, Or.inl rfl⟩
    | some c2 =>
        rw [hlk] at he
        rw [← he]
        exact ⟨rfl, Or.inr ⟨c2, rfl, rfl⟩⟩
  · exact Or.inr (List.mem_filter.mp h).1

/-- `add_polynomials` preserves the tracing invariant. -/
theorem good_add_polynomials (p1 p2 : Poly) (g1 : GoodPoly p1)
    (g2 : GoodPoly p2) : GoodPoly (add_polynomials p1 p2) := by
  obtain ⟨n1, s1, z1, o1, ne1⟩ := g1
  obtain ⟨n2, s2, z2, o2, ne2⟩ := g2
  have hval : ∀ e ∈ add_polynomials p1 p2,
      e.2 ≠ Coeff.zero ∧ (e.1 = [] → e.2 ≠ Coeff.one) := by
    intro e he
    rcases mem_add_polynomials p1 p2 e he with ⟨e1, he1, hk, hv⟩ | he2
    · rcases hv with hv | ⟨c2, hlk, hv⟩
      · rw [hv, hk]
        exact ⟨z1 e1 he1, o1 e1 he1⟩
      · have hc2 : (e1.1, c2) ∈ p2 := lookupC_some_mem p2 e1.1 c2 hlk
        have hz2 : c2 ≠ Coeff.zero := z2 _ hc2
        rw [hv]
        refine ⟨add_coeffs_ne_zero _ _ (z1 e1 he1) hz2, fun hnil => ?_⟩
        obtain ⟨v, hvv⟩ := add_coeffs_val_of_ne e1.2 c2 (z1 e1 he1) hz2
        rw [hvv]
        intro hc
        exact Coeff.noConfusion hc
    · exact ⟨z2 e he2, o2 e he2⟩
  refine ⟨?_, ?_, fun e he => (hval e he).1, fun e he => (hval e he).2, ?_⟩
  · unfold add_polynomials
    rw [List.map_append, List.nodup_append]
    refine ⟨by rw [add_polynomials_left_keys]; exact n1, ?_, ?_⟩
    · exact ((List.filter_sublist p2).map Prod.fst).nodup n2
    · intro k hk1 hk2
      rw [add_polynomials_left_keys] at hk1
      rw [List.mem_map] at hk2
      obtain ⟨e2, he2, rfl⟩ := hk2
      have hg := (List.mem_filter.mp he2).2
      rw [Option.isNone_iff_eq_none] at hg
      exact ((lookupC_eq_none p1 e2.1).mp hg) hk1
  · intro e he
    rcases mem_add_polynomials p1 p2 e he with ⟨e1, he1, hk, -⟩ | he2
    · rw [hk]
      exact s1 e1 he1
    · exact s2 e he2
  · unfold add_polynomials
    rcases hp1 : p1 with _ | ⟨e1, p1'⟩
    · exact absurd hp1 ne1
    · simp

/-- A successful linear dispatch maps every coefficient (which must have been
opaque) through the host apply, keys unchanged; the output's value is the
pointwise image of the input's. -/
theorem apply_linear_host_ok (f : Int → Int) (p q : Poly)
    (h : apply_linear_host f p = .ok q) :
    q.map Prod.fst = p.map Prod.fst ∧
    (∀ e ∈ q, ∃ a : Int, e.2 = Coeff.val a) ∧
    ∀ x : Int, psem x q =
      (p.map fun e => f (esem e.2) * x ^ e.1.length).sum := by
  induction p generalizing q with
  | nil =>
      rw [apply_linear_host] at h
      injection h with h
      subst h
      exact ⟨rfl, by simp, by simp [psem]⟩
  | cons e rest ih =>
      rw [apply_linear_host] at h
      cases he2 : e.2 with
      | zero =>
          rw [he2] at h
          simp [host_apply_unary, bind, Except.bind] at h
      | one =>
          rw [he2] at h
          simp [host_apply_unary, bind, Except.bind] at h
      | val a =>
          rw [he2] at h
          simp only [host_apply_unary, bind, Except.bind] at h
          cases hr : apply_linear_host f rest with
          | error err =>
              rw [hr] at h
              simp at h
          | ok q' =>
              rw [hr] at h
              simp only [] at h
              injection h with h
              subst h
              obtain ⟨hk, hv, hs⟩ := ih q' hr
              refine ⟨?_, ?_, ?_⟩
              · rw [List.map_cons, List.map_cons, hk]
              · intro e' he'
                rcases List.mem_cons.mp he' with he' | he'
                · exact ⟨f a, by rw [he']⟩
                · exact hv e' he'
              · intro x
                rw [psem_cons, hs x, List.map_cons, List.sum_cons, he2]
                show f a * x ^ e.1.length + _ = f (esem (Coeff.val a)) * _ + _
                rfl

/-- A successful linear dispatch preserves the tracing invariant. -/
theorem good_apply_linear_host (f : Int → Int) (p q : Poly)
    (h : apply_linear_host f p = .ok q) (g : GoodPoly p) : GoodPoly q := by
  obtain ⟨hk, hv, -⟩ := apply_linear_host_ok f p q h
  obtain ⟨n1, s1, z1, o1, ne1⟩ := g
  refine ⟨by rw [hk]; exact n1, ?_, ?_, ?_, ?_⟩
  · intro e he
    have : e.1 ∈ p.map Prod.fst := by
      rw [← hk]
      exact List.mem_map_of_mem Prod.fst he
    rw [List.mem_map] at this
    obtain ⟨e1, he1, hkey⟩ := this
    rw [← hkey]
    exact s1 e1 he1
  · intro e he
    obtain ⟨a, ha⟩ := hv e he
    rw [ha]
    intro hc
    exact Coeff.noConfusion hc
  · intro e he _
    obtain ⟨a, ha⟩ := hv e he
    rw [ha]
    intro hc
    exact Coeff.noConfusion hc
  · intro hq
    apply ne1
    have : p.map Prod.fst = [] := by
      rw [← hk, hq]
      rfl
    exact List.map_eq_nil_iff.mp this

/-! ### The trace computes polynomial values -/

theorem process_add_eq (p1 p2 : Poly) :
    process_primitive std_addition std_multiplication std_linear
      .add [p1, p2] = .ok (add_polynomials p1 p2) := rfl

theorem process_mul_eq (p1 p2 : Poly) :
    process_primitive std_addition std_multiplication std_linear
      .mul [p1, p2] = .ok (mul_polynomials (· * ·) p1 p2) := rfl

theorem process_neg_eq (p : Poly) :
    process_primitive std_addition std_multiplication std_linear
      .neg [p] = apply_linear_host (fun v => -v) p := rfl

/-- Every polynomial produced by tracing a single-input computation
satisfies the tracing invariant and evaluates, under `psem`, to the direct
evaluation of the computation. -/
theorem trace_good (e : Expr) (p : Poly)
    (hb : Expr.inputsBounded 1 e = true) (h : traceE e = .ok p) :
    GoodPoly p ∧ ∀ x : Int, psem x p = evalE [x] e := by
  induction e generalizing p with
  | input i =>
      have hi : i = 0 := by
        have := of_decide_eq_true (by simpa [Expr.inputsBounded] using hb)
        omega
      subst hi
      rw [traceE] at h
      injection h with h
      subst h
      constructor
      · refine ⟨by simp, ?_, ?_, ?_, by simp⟩
        · intro e he s hs
          rcases List.mem_cons.mp he with he | he
          · rw [he] at hs
            rw [show Mon.make [0] = [0] from rfl] at hs
            simpa using hs
          · simp at he
        · intro e he
          rcases List.mem_cons.mp he with he | he
          · rw [he]
            intro hc
            exact Coeff.noConfusion hc
          · simp at he
        · intro e he hnil
          rcases List.mem_cons.mp he with he | he
          · rw [he] at hnil
            exact absurd hnil (by decide)
          · simp at he
      · intro x
        rw [psem_cons, psem_nil]
        show esem Coeff.one * x ^ (Mon.make [0]).length + 0 = evalE [x] (.input 0)
        rw [length_Mon_make]
        simp [esem, evalE]
  | lit c =>
      rw [traceE] at h
      injection h with h
      subst h
      constructor
      · refine ⟨by simp [const_poly], ?_, ?_, ?_, by simp [const_poly]⟩
        · intro e he s hs
          rw [const_poly] at he
          rcases List.mem_cons.mp he with he | he
          · rw [he] at hs
            rw [show Mon.make [] = [] from rfl] at hs
            simp at hs
          · simp at he
        · intro e he
          rw [const_poly] at he
          rcases List.mem_cons.mp he with he | he
          · rw [he]
            intro hc
            exact Coeff.noConfusion hc
          · simp at he
        · intro e he _
          rw [const_poly] at he
          rcases List.mem_cons.mp he with he | he
          · rw [he]
            intro hc
            exact Coeff.noConfusion hc
          · simp at he
      · intro x
        show psem x (const_poly (.val c)) = c
        unfold const_poly
        rw [psem_cons, psem_nil]
        show esem (Coeff.val c) * x ^ (Mon.make []).length + 0 = c
        rw [show Mon.make [] = [] from rfl]
        simp [esem]
  | add a b iha ihb =>
      rw [Expr.inputsBounded, Bool.and_eq_true] at hb
      rw [traceE] at h
      cases ha : traceE a with
      | error err =>
          rw [ha] at h
          simp [bind, Except.bind] at h
      | ok pa =>
          rw [ha] at h
          cases hbb : traceE b with
          | error err =>
              rw [hbb] at h
              simp [bind, Except.bind] at h
          | ok pb =>
              rw [hbb] at h
              simp only [bind, Except.bind, process_add_eq] at h
              injection h with h
              subst h
              obtain ⟨ga, sa⟩ := iha pa hb.1 ha
              obtain ⟨gb, sb⟩ := ihb pb hb.2 hbb
              refine ⟨good_add_polynomials pa pb ga gb, fun x => ?_⟩
              rw [psem_add_polynomials x pa pb ga.1 gb.1, sa x, sb x]
              rfl
  | mul a b iha ihb =>
      rw [Expr.inputsBounded, Bool.and_eq_true] at hb
      rw [traceE] at h
      cases ha : traceE a with
      | error err =>
          rw [ha] at h
          simp [bind, Except.bind] at h
      | ok pa =>
          rw [ha] at h
          cases hbb : traceE b with
          | error err =>
              rw [hbb] at h
              simp [bind, Except.bind] at h
          | ok pb =>
              rw [hbb] at h
              simp only [bind, Except.bind, process_mul_eq] at h
              injection h with h
              subst h
              obtain ⟨ga, sa⟩ := iha pa hb.1 ha
              obtain ⟨gb, sb⟩ := ihb pb hb.2 hbb
              refine ⟨good_mul_polynomials (· * ·) pa pb ga gb, fun x => ?_⟩
              rw [psem_mul_polynomials x pa pb, sa x, sb x]
              rfl
  | neg a iha =>
      rw [Expr.inputsBounded] at hb
      rw [traceE] at h
      cases ha : traceE a with
      | error err =>
          rw [ha] at h
          simp [bind, Except.bind] at h
      | ok pa =>
          rw [ha] at h
          simp only [bind, Except.bind, process_neg_eq] at h
          obtain ⟨ga, sa⟩ := iha pa hb ha
          refine ⟨good_apply_linear_host _ pa p h ga, fun x => ?_⟩
          obtain ⟨-, -, hs⟩ := apply_linear_host_ok _ pa p h
          rw [hs x]
          have : (pa.map fun e => (fun v : Int => -v) (esem e.2) *
              x ^ e.1.length) = pa.map fun e =>
                -(esem e.2 * x ^ e.1.length) := by
            apply List.map_congr_left
            intro e _
            ring
          rw [this, sum_map_neg_int pa fun e => esem e.2 * x ^ e.1.length]
          show -(psem x pa) = _
          rw [sa x]
          rfl

/-! ### The Horner evaluator -/

theorem hornerStep_zero (x : Int) (c : Coeff) : hornerStep x .zero c = c := by
  unfold hornerStep
  rw [show mul_coeffs (· * ·) .zero (.val x) = .zero from rfl,
    add_coeffs_zero_left]

theorem hornerStep_one (x : Int) (c : Coeff) :
    hornerStep x .one c = .val (x + esem c) := by
  cases c <;> simp [hornerStep, mul_coeffs, add_coeffs, esem]

theorem hornerStep_val (x v : Int) (c : Coeff) :
    hornerStep x (.val v) c = .val (v * x + esem c) := by
  cases c <;> simp [hornerStep, mul_coeffs, add_coeffs, esem]

theorem esem_hornerStep (x : Int) (out c : Coeff) :
    esem (hornerStep x out c) = esem out * x + esem c := by
  unfold hornerStep
  rw [esem_add, esem_mul]
  rfl

theorem foldl_hornerStep_val (x : Int) (l : List Coeff) (v : Int) :
    ∃ w, l.foldl (hornerStep x) (.val v) = .val w := by
  induction l generalizing v with
  | nil => exact ⟨v, rfl⟩
  | cons c l ih =>
      rw [List.foldl_cons, hornerStep_val]
      exact ih _

theorem esem_eval_univariate (x : Int) (coeffs : List Coeff) :
    esem (eval_univariate_polynomial x coeffs) = polyval x coeffs := by
  unfold eval_univariate_polynomial
  induction coeffs with
  | nil => rfl
  | cons c cs ih =>
      rw [List.reverse_cons, List.foldl_append, List.foldl_cons,
        List.foldl_nil, esem_hornerStep, ih, polyval]
      ring

/-- The Horner loop ends on an opaque value as soon as the top coefficient is
not the `zero` sentinel, unless the whole array is the single sentinel
`one`. -/
theorem foldl_hornerStep_res (x : Int) (ctop : Coeff) (rest : List Coeff)
    (htop : ctop ≠ .zero) (h1 : rest ≠ [] ∨ ctop ≠ .one) :
    ∃ w, (ctop :: rest).foldl (hornerStep x) .zero = .val w := by
  rw [List.foldl_cons, hornerStep_zero]
  cases ctop with
  | zero => exact absurd rfl htop
  | one =>
      rcases h1 with h1 | h1
      · rcases rest with _ | ⟨c, rest'⟩
        · exact absurd rfl h1
        · rw [List.foldl_cons, hornerStep_one]
          exact foldl_hornerStep_val x rest' _
      · exact absurd rfl h1
  | val v => exact foldl_hornerStep_val x rest v

/-! ### The dense coefficient array -/

theorem getD_set_self (l : List Coeff) (d : Nat) (c : Coeff)
    (h : d < l.length) : (l.set d c).getD d .zero = c := by
  induction l generalizing d with
  | nil => simp at h
  | cons e l ih =>
      cases d with
      | zero => rfl
      | succ d =>
          rw [List.set_cons_succ, List.getD_cons_succ]
          exact ih d (by simpa using h)

theorem getD_set_ne (l : List Coeff) (d n : Nat) (c : Coeff) (h : d ≠ n) :
    (l.set d c).getD n .zero = l.getD n .zero := by
  induction l generalizing d n with
  | nil => simp
  | cons e l ih =>
      cases d with
      | zero =>
          cases n with
          | zero => exact absurd rfl h
          | succ n => rfl
      | succ d =>
          cases n with
          | zero => rfl
          | succ n =>
              rw [List.set_cons_succ, List.getD_cons_succ,
                List.getD_cons_succ]
              exact ih d n fun hc => h (by rw [hc])

theorem getD_replicate_zero (n d : Nat) :
    (List.replicate n Coeff.zero).getD d .zero = .zero := by
  induction n generalizing d with
  | zero => simp
  | succ n ih =>
      cases d with
      | zero => rfl
      | succ d =>
          rw [List.replicate_succ, List.getD_cons_succ]
          exact ih d

theorem polyval_replicate_zero (x : Int) (n : Nat) :
    polyval x (List.replicate n Coeff.zero) = 0 := by
  induction n with
  | zero => rfl
  | succ n ih =>
      rw [List.replicate_succ, polyval, ih]
      simp [esem]

theorem polyval_set (x : Int) (l : List Coeff) (d : Nat) (c : Coeff)
    (hd : d < l.length) :
    polyval x (l.set d c) =
      polyval x l + (esem c - esem (l.getD d .zero)) * x ^ d := by
  induction l generalizing d with
  | nil => simp at hd
  | cons e l ih =>
      cases d with
      | zero =>
          rw [List.set_cons_zero, polyval, polyval]
          show _ = _ + (esem c - esem e) * x ^ 0
          ring
      | succ d =>
          rw [List.set_cons_succ, polyval, polyval,
            ih d (by simpa using hd), List.getD_cons_succ]
          ring

theorem buildfold_length (p : Poly) (l : List Coeff) :
    (p.foldl (fun cs e => cs.set e.1.length e.2) l).length = l.length := by
  induction p generalizing l with
  | nil => rfl
  | cons e p ih =>
      rw [List.foldl_cons, ih]
      exact List.length_set l _ _

theorem buildfold_getD_not_mem (p : Poly) (l : List Coeff) (d : Nat)
    (h : ∀ e ∈ p, e.1.length ≠ d) :
    (p.foldl (fun cs e => cs.set e.1.length e.2) l).getD d .zero =
      l.getD d .zero := by
  induction p generalizing l with
  | nil => rfl
  | cons e p ih =>
      rw [List.foldl_cons, ih _ fun e' he' => h e' (List.mem_cons_of_mem e he'),
        getD_set_ne _ _ _ _ (h e (List.mem_cons_self e p))]

theorem buildfold_getD_mem (p : Poly) (l : List Coeff) (e0 : Mon × Coeff)
    (he0 : e0 ∈ p) (hdist : (p.map fun e => e.1.length).Nodup)
    (hlen : ∀ e ∈ p, e.1.length < l.length) :
    (p.foldl (fun cs e => cs.set e.1.length e.2) l).getD e0.1.length .zero =
      e0.2 := by
  induction p generalizing l with
  | nil => simp at he0
  | cons e p ih =>
      rw [List.map_cons] at hdist
      obtain ⟨hnot, htail⟩ := List.nodup_cons.mp hdist
      rw [List.foldl_cons]
      rcases List.mem_cons.mp he0 with he0 | he0
      · subst he0
        rw [buildfold_getD_not_mem p _ e0.1.length fun e' he' hc =>
            hnot (hc ▸ List.mem_map_of_mem (fun e => e.1.length) he')]
        exact getD_set_self l _ _ (hlen e0 (List.mem_cons_self e0 p))
      · refine ih _ he0 htail fun e' he' => ?_
        rw [List.length_set]
        exact hlen e' (List.mem_cons_of_mem e he')

theorem polyval_buildfold (x : Int) (p : Poly) (l : List Coeff)
    (hlen : ∀ e ∈ p, e.1.length < l.length)
    (hslot : ∀ e ∈ p, l.getD e.1.length .zero = .zero)
    (hdist : (p.map fun e => e.1.length).Nodup) :
    polyval x (p.foldl (fun cs e => cs.set e.1.length e.2) l) =
      polyval x l + psem x p := by
  induction p generalizing l with
  | nil =>
      rw [psem_nil]
      simp
  | cons e p ih =>
      rw [List.map_cons] at hdist
      obtain ⟨hnot, htail⟩ := List.nodup_cons.mp hdist
      rw [List.foldl_cons, ih _ ?_ ?_ htail, psem_cons,
        polyval_set x l _ _ (hlen e (List.mem_cons_self e p)),
        hslot e (List.mem_cons_self e p)]
      · show _ + _ + _ = _
        simp only [esem]
        ring
      · intro e' he'
        rw [List.length_set]
        exact hlen e' (List.mem_cons_of_mem e he')
      · intro e' he'
        rw [getD_set_ne _ _ _ _ fun hc => hnot (by
          rw [hc]
          exact List.mem_map_of_mem (fun e => e.1.length) he')]
        exact hslot e' (List.mem_cons_of_mem e he')

theorem getD_append_len (l1 : List Coeff) (b : Coeff) :
    (l1 ++ [b]).getD l1.length .zero = b := by
  induction l1 with
  | nil => rfl
  | cons e l ih =>
      rw [List.cons_append, List.length_cons, List.getD_cons_succ]
      exact ih

theorem good_lengths_nodup (p : Poly) (hk : (p.map Prod.fst).Nodup)
    (hs : ∀ e ∈ p, ∀ s ∈ e.1, s = 0) :
    (p.map fun e => e.1.length).Nodup := by
  have hmm : (p.map fun e => e.1.length) =
      (p.map Prod.fst).map List.length := by
    rw [List.map_map]
    rfl
  rw [hmm]
  refine List.Nodup.map_on ?_ hk
  intro m1 h1 m2 h2 heq
  rw [List.mem_map] at h1 h2
  obtain ⟨e1, he1, rfl⟩ := h1
  obtain ⟨e2, he2, rfl⟩ := h2
  rw [List.eq_replicate_of_mem (hs e1 he1),
    List.eq_replicate_of_mem (hs e2 he2), heq]

theorem le_foldl_max (l : List Nat) (a : Nat) : a ≤ l.foldl max a := by
  induction l generalizing a with
  | nil => exact le_refl a
  | cons c l ih => exact le_trans (le_max_left a c) (ih (max a c))

theorem foldl_max_ge_mem (l : List Nat) (a : Nat) :
    ∀ b, b ∈ l → b ≤ l.foldl max a := by
  induction l generalizing a with
  | nil => simp
  | cons c l ih =>
      intro b hb
      rw [List.foldl_cons]
      rcases List.mem_cons.mp hb with hb | hb
      · subst hb
        exact le_trans (le_max_right a b) (le_foldl_max l (max a b))
      · exact ih (max a c) b hb

theorem foldl_max_cases (l : List Nat) (a : Nat) :
    l.foldl max a = a ∨ l.foldl max a ∈ l := by
  induction l generalizing a with
  | nil => exact Or.inl rfl
  | cons c l ih =>
      rw [List.foldl_cons]
      rcases ih (max a c) with h | h
      · rcases max_choice a c with hm | hm
        · exact Or.inl (by rw [h, hm])
        · exact Or.inr (by rw [h, hm]; exact List.mem_cons_self c l)
      · exact Or.inr (List.mem_cons_of_mem c h)

/-- Core of the evaluator correctness: with a degree bound that is attained
and an invariant-satisfying polynomial, collapsing to the dense array and
running Horner yields the polynomial's value as an opaque host value. -/
theorem instantiate_horner_build (pp : Poly) (x : Int) (aval : Aval)
    (dM : Nat) (hub : ∀ e ∈ pp, e.1.length ≤ dM)
    (hattain : ∃ et, et ∈ pp ∧ et.1.length = dM)
    (hdist : (pp.map fun e => e.1.length).Nodup)
    (hz : ∀ e ∈ pp, e.2 ≠ Coeff.zero)
    (ho : ∀ e ∈ pp, e.1 = [] → e.2 ≠ Coeff.one) :
    instantiate_symbolic aval
      (eval_univariate_polynomial x (buildCoeffs pp dM)) =
      .ok (psem x pp) := by
  have hlenlt : ∀ e ∈ pp,
      e.1.length < (List.replicate (dM + 1) Coeff.zero).length := by
    intro e he
    rw [List.length_replicate]
    exact Nat.lt_succ_of_le (hub e he)
  have hcslen : (buildCoeffs pp dM).length = dM + 1 := by
    unfold buildCoeffs
    rw [buildfold_length, List.length_replicate]
  have hpv : polyval x (buildCoeffs pp dM) = psem x pp := by
    unfold buildCoeffs
    rw [polyval_buildfold x pp _ hlenlt
      (fun e _ => getD_replicate_zero _ _) hdist, polyval_replicate_zero]
    ring
  obtain ⟨et, het, hlentop⟩ := hattain
  have htopslot : (buildCoeffs pp dM).getD dM .zero = et.2 := by
    unfold buildCoeffs
    have h2 := buildfold_getD_mem pp _ et het hdist hlenlt
    rw [hlentop] at h2
    exact h2
  have htopz : et.2 ≠ Coeff.zero := hz et het
  rcases List.eq_nil_or_concat (buildCoeffs pp dM) with hcs | ⟨L, b, hcs⟩
  · rw [hcs] at hcslen
    simp at hcslen
  rw [List.concat_eq_append] at hcs
  have hbL : L.length = dM := by
    rw [hcs, List.length_append] at hcslen
    simpa using hcslen
  have hb : b = et.2 := by
    rw [hcs, ← hbL] at htopslot
    rw [← getD_append_len L b, htopslot]
  have hrev : (buildCoeffs pp dM).reverse = b :: L.reverse := by
    rw [hcs, List.reverse_append]
    rfl
  have h1 : L.reverse ≠ [] ∨ b ≠ Coeff.one := by
    by_cases hL : L = []
    · right
      have hd0 : dM = 0 := by
        rw [← hbL, hL]
        rfl
      have hetnil : et.1 = [] := by
        rw [hd0] at hlentop
        exact List.length_eq_zero.mp hlentop
      rw [hb]
      exact ho et het hetnil
    · left
      intro hc
      exact hL (by simpa using congrArg List.reverse hc)
  obtain ⟨w, hw⟩ := foldl_hornerStep_res x b L.reverse (hb ▸ htopz) h1
  have heval : eval_univariate_polynomial x (buildCoeffs pp dM) = .val w := by
    unfold eval_univariate_polynomial
    rw [hrev]
    exact hw
  have hwv : w = psem x pp := by
    have h2 := esem_eval_univariate x (buildCoeffs pp dM)
    rw [heval] at h2
    rw [← hpv]
    exact h2
  rw [heval, hwv]
  rfl

/-- On a one-symbol environment, evaluating a polynomial that satisfies the
tracing invariant succeeds and returns its mathematical value at the
substituted input. -/
theorem eval_polynomial_good (p : Poly) (x : Int) (aval : Aval) (s : Nat)
    (hg : GoodPoly p) :
    eval_polynomial [(s, x)] p aval = .ok (psem x p) := by
  obtain ⟨hk, hs, hz, ho, hne⟩ := hg
  rcases p with _ | ⟨e0, p'⟩
  · exact absurd rfl hne
  show instantiate_symbolic aval (eval_univariate_polynomial x
    (buildCoeffs (e0 :: p')
      ((e0 :: p').foldl (fun acc e => max acc e.1.length) 0))) =
    .ok (psem x (e0 :: p'))
  have hM : (e0 :: p').foldl (fun acc e => max acc e.1.length) 0 =
      ((e0 :: p').map fun e => e.1.length).foldl max 0 :=
    (List.foldl_map (fun e : Mon × Coeff => e.1.length) max _ 0).symm
  apply instantiate_horner_build (e0 :: p') x aval _ ?_ ?_
    (good_lengths_nodup _ hk hs) hz ho
  · intro e he
    rw [hM]
    exact foldl_max_ge_mem _ 0 _
      (List.mem_map_of_mem (fun e => e.1.length) he)
  · rcases foldl_max_cases ((e0 :: p').map fun e => e.1.length) 0
        with h | h
    · refine ⟨e0, List.mem_cons_self e0 p', ?_⟩
      have hub0 := foldl_max_ge_mem
        ((e0 :: p').map fun e => e.1.length) 0 e0.1.length
        (List.mem_map_of_mem (fun e => e.1.length)
          (List.mem_cons_self e0 p'))
      rw [hM, h]
      rw [h] at hub0
      omega
    · rw [List.mem_map] at h
      obtain ⟨et, het, hlen⟩ := h
      exact ⟨et, het, by rw [hM, hlen]⟩

/-- Claim C1, as stated over every function built from additive,
multiplicative and linear primitives, fails: the linear primitive `neg`
applied directly to the traced input hands the bare `one` sentinel of the
input's polynomial to the host's concrete negation, which rejects it, so
`simplify` fails on `f(x) = -x` at `x = 4` instead of returning `-4`. -/
theorem claim_C1_counterexample :
    simplify (Expr.neg (Expr.input 0)) [4] ≠
      .ok (evalE [4] (Expr.neg (Expr.input 0))) ∧
    evalE [4] (Expr.neg (Expr.input 0)) = -4 ∧
    simplify (Expr.neg (Expr.input 0)) [4] = .error .hostError := by
  have herr : simplify (Expr.neg (Expr.input 0)) [4] =
      .error .hostError := rfl
  refine ⟨?_, by decide, herr⟩
  rw [herr]
  intro hc
  exact Except.noConfusion hc

/-- Claim C1 (amended): round-trip evaluation correctness holds for every
single-input function whose tracing interception completes — in particular
every function built purely from additive and multiplicative primitives,
and functions whose linear primitives are only applied to tracked values
with concrete coefficients: `simplify(f, [x])` equals evaluating `f(x)`
directly.  A linear primitive applied to a value still carrying a bare
sentinel coefficient fails in the host during tracing, so such functions
do not round-trip. -/
theorem claim_C1_round_trip (e : Expr) (x : Int)
    (hb : Expr.inputsBounded 1 e = true)
    (hok : (traceE e).isOk = true) :
    simplify e [x] = .ok (evalE [x] e) := by
  cases h : traceE e with
  | error err =>
      rw [h] at hok
      simp [Except.isOk, Except.toBool] at hok
  | ok p =>
      obtain ⟨hg, hsem⟩ := trace_good e p hb h
      unfold simplify
      rw [h]
      simp only [bind, Except.bind]
      show eval_polynomial [(0, x)] p .scalar = _
      rw [eval_polynomial_good p x .scalar 0 hg, hsem x]

/-- Witness for C1: the spec's sum-of-squares scenario,
`f(x) = x*x + x*x` at `x = 3`, simplifies and evaluates to `18`. -/
theorem claim_C1_witness :
    simplify (Expr.add (Expr.mul (.input 0) (.input 0))
      (Expr.mul (.input 0) (.input 0))) [3] = .ok 18 :=
  (claim_C1_round_trip
    (Expr.add (Expr.mul (.input 0) (.input 0))
      (Expr.mul (.input 0) (.input 0))) 3 (by decide) (by decide)).trans
    (congrArg Except.ok (by decide))

end PolySimp
